import Mathlib

/-!
Shallow embedding of yuud/timewheel (src/timewheel.go), a slotted timing
wheel with a single-threaded coordinator.

Modelling conventions:
* Go `time.Duration` is an `Int` counting nanoseconds.
* `int(d.Seconds())` (float64 conversion then truncation toward zero) is
  modelled as truncating integer division by 10^9; this is exact for every
  duration whose magnitude is below 2^52 seconds.
* Go integer division and remainder truncate toward zero, which is
  `Int.tdiv` / `Int.tmod`.
* Go runtime panics (integer division by zero, slice index out of range)
  are modelled by returning `none`; a non-terminating scan loop is modelled
  by fuel exhaustion, also `none`.
* The registry `map[interface{}]int` is an association list with
  no duplicate keys (insertion erases the old binding first); keys
  (`interface{}`, compared with `==`) are modelled as `Nat` and are never
  the nil interface value.  Callbacks (`Job`) and their `TaskData` argument
  are opaque to the wheel and are modelled as identifiers `jobId` and
  `payload`; the statement `go task.job(task.taskData)` is modelled by
  appending the fired task to a `dispatched` log.
-/

namespace TimeWheelModel

/-- One scheduled task (struct `task` in timewheel.go): `interval` is the
requested delay in nanoseconds, `times` is -1 for run-forever or a finite
remaining-run count, `circle` is the number of remaining full rotations,
`key` the registry key, `payload` and `jobId` stand for the opaque
`taskData` and `job` fields. -/
structure Task where
  interval : Int
  times : Int
  circle : Int
  key : Nat
  payload : Nat
  jobId : Nat
deriving DecidableEq

/-- The task registry (field `timer map[interface{}]int`): an association
list from key to slot index. -/
abbrev Timer := List (Nat × Nat)

/-- Registry read `tw.timer[key]` (with presence flag). -/
def timerLookup (m : Timer) (k : Nat) : Option Nat :=
  match m with
  | [] => none
  | (k1, v) :: rest => if k1 = k then some v else timerLookup rest k

/-- Registry `delete(tw.timer, key)`. -/
def timerErase (m : Timer) (k : Nat) : Timer :=
  match m with
  | [] => []
  | (k1, v) :: rest => if k1 = k then timerErase rest k else (k1, v) :: timerErase rest k

/-- Registry write `tw.timer[key] = pos` (a Go map write replaces any
previous binding). -/
def timerInsert (m : Timer) (k : Nat) (v : Nat) : Timer :=
  (k, v) :: timerErase m k

/-- The wheel (struct `TimeWheel`): slot interval in nanoseconds, the slot
array, the registry, the cursor, the slot count, plus the log of dispatched
tasks standing for the fired `go task.job(task.taskData)` calls.  The
channels and the ticker belong to the concurrency harness and carry no
wheel state. -/
structure TimeWheel where
  interval : Int
  slots : List (List Task)
  timer : Timer
  currentPos : Nat
  slotNum : Nat
  dispatched : List Task
deriving DecidableEq

/-- Nanoseconds per second. -/
def nsPerSec : Int := 1000000000

/-- Go `int(d.Seconds())`: whole seconds of a duration, truncated toward
zero. -/
def durationSeconds (d : Int) : Int := Int.tdiv d nsPerSec

/-- getPositionAndCircle (timewheel.go:229-235):
`delaySeconds := int(d.Seconds())`, `intervalSeconds := int(tw.interval.Seconds())`,
`circle = delaySeconds / intervalSeconds / tw.slotNum`,
`pos = (tw.currentPos + delaySeconds/intervalSeconds) % tw.slotNum`.
Returns `none` where Go panics with an integer division by zero, namely
when the wheel interval truncates to 0 whole seconds (or when `slotNum`
is 0, which `New` rules out). -/
def getPositionAndCircle (tw : TimeWheel) (d : Int) : Option (Int × Int) :=
  let delaySeconds := durationSeconds d
  let intervalSeconds := durationSeconds tw.interval
  if intervalSeconds = 0 ∨ tw.slotNum = 0 then none
  else
    let steps := Int.tdiv delaySeconds intervalSeconds
    some (Int.tmod (Int.ofNat tw.currentPos + steps) (Int.ofNat tw.slotNum),
          Int.tdiv steps (Int.ofNat tw.slotNum))

/-- addTask (timewheel.go:137-144): compute `(pos, circle)`, store the
circle on the task, `tw.slots[pos].PushBack(task)`, and record
`tw.timer[task.key] = pos`.  `none` models the panics propagated from
`getPositionAndCircle` or a slice index out of range (negative `pos`). -/
def addTask (tw : TimeWheel) (t : Task) : Option TimeWheel :=
  match getPositionAndCircle tw t.interval with
  | none => none
  | some (pos, circ) =>
    if 0 ≤ pos ∧ pos.toNat < tw.slots.length then
      some { tw with
             slots := tw.slots.set pos.toNat
                       (tw.slots.getD pos.toNat [] ++ [{ t with circle := circ }]),
             timer := timerInsert tw.timer t.key pos.toNat }
    else none

/-- updateTask (timewheel.go:147-166): if the key is absent, return
unchanged; otherwise walk the recorded slot and overwrite `interval` and
`taskData` of every task whose key matches (the task is not moved and its
`circle`/`times` are untouched).  The `fmt.Println(update)` console write
carries no wheel state.  `none` models the (in well-formed states
unreachable) index-out-of-range panic. -/
def updateTask (tw : TimeWheel) (key : Nat) (interval : Int) (payload : Nat) :
    Option TimeWheel :=
  match timerLookup tw.timer key with
  | none => some tw
  | some pos =>
    if pos < tw.slots.length then
      some { tw with
             slots := tw.slots.set pos
                       ((tw.slots.getD pos []).map
                         (fun t => if t.key = key then
                            { t with interval := interval, payload := payload }
                          else t)) }
    else none

/-- removeTask (timewheel.go:169-186): if the key is absent, return
unchanged; otherwise walk the recorded slot and on the first task whose key
matches, delete the registry entry and unlink the element.  Go's
`list.Remove` nils out the removed element's `next` pointer and the loop
then reads `e = e.Next()`, so the walk stops right after the first removal:
only the first match is removed. -/
def removeTask (tw : TimeWheel) (key : Nat) : Option TimeWheel :=
  match timerLookup tw.timer key with
  | none => some tw
  | some pos =>
    if pos < tw.slots.length then
      let l := tw.slots.getD pos []
      if l.any (fun t => t.key == key) then
        some { tw with
               slots := tw.slots.set pos (l.eraseP (fun t => t.key == key)),
               timer := timerErase tw.timer key }
      else some tw
    else none

/-- The body of scanAddRunTask (timewheel.go:189-226).  `todo` is the chain
from the iterator to the back of the slot's list, `kept` the elements
already visited and left in place.  A fired periodic task is re-added with
`tw.addTask(task)`; when the computed position is the slot being scanned,
`PushBack` appends to the very list under iteration: the captured
`next := item.Next()` already points past the old back, so the new element
is reached by the iterator exactly when the rest of the chain is nonempty.
Fuel exhaustion (`none`) models the loop failing to terminate, which is
possible because such re-added tasks can be rescanned without bound. -/
def scanLoop : Nat → TimeWheel → List Task → List Task →
    Option (List Task × TimeWheel)
  | 0, _, _, _ => none
  | _ + 1, tw, [], kept => some (kept, tw)
  | fuel + 1, tw, t :: rest, kept =>
    if t.times = 0 then
      scanLoop fuel { tw with timer := timerErase tw.timer t.key } rest kept
    else if 0 < t.circle then
      scanLoop fuel tw rest (kept ++ [{ t with circle := t.circle - 1 }])
    else
      let tw1 := { tw with dispatched := tw.dispatched ++ [t],
                           timer := timerErase tw.timer t.key }
      if 0 < t.times ∨ t.times = -1 then
        let t1 := if 0 < t.times then { t with times := t.times - 1 } else t
        match getPositionAndCircle tw1 t1.interval with
        | none => none
        | some (pos, circ) =>
          if 0 ≤ pos ∧ pos.toNat < tw1.slots.length then
            let t2 := { t1 with circle := circ }
            let tw2 := { tw1 with timer := timerInsert tw1.timer t1.key pos.toNat }
            if pos.toNat = tw1.currentPos then
              match rest with
              | [] => some (kept ++ [t2], tw2)
              | _ :: _ => scanLoop fuel tw2 (rest ++ [t2]) kept
            else
              scanLoop fuel
                { tw2 with slots := tw2.slots.set pos.toNat
                            (tw2.slots.getD pos.toNat [] ++ [t2]) }
                rest kept
          else none
      else
        scanLoop fuel tw1 rest kept

/-- tickHandler (timewheel.go:126-134): scan the slot at `currentPos` with
scanAddRunTask, then advance the cursor by one, wrapping at
`slotNum - 1`. -/
def tickHandler (fuel : Nat) (tw : TimeWheel) : Option TimeWheel :=
  if tw.currentPos < tw.slots.length then
    match scanLoop fuel tw (tw.slots.getD tw.currentPos []) [] with
    | none => none
    | some (final, tw1) =>
      some { tw1 with
             slots := tw1.slots.set tw.currentPos final,
             currentPos := if tw.currentPos = tw.slotNum - 1 then 0
                           else tw.currentPos + 1 }
  else none

/-- New (timewheel.go:47-66) together with init (timewheel.go:119-123):
reject a non-positive interval or slot count by returning the nil pointer
(modelled `none`; the signature carries no error value), otherwise build a
wheel with cursor 0 and `slotNum` empty slots. -/
def New (interval : Int) (slotNum : Int) : Option TimeWheel :=
  if interval ≤ 0 ∨ slotNum ≤ 0 then none
  else some { interval := interval,
              slots := List.replicate slotNum.toNat [],
              timer := [],
              currentPos := 0,
              slotNum := slotNum.toNat,
              dispatched := [] }

/-- One command drained by the coordinator loop (timewheel.go:79-95): an
accepted add / update / remove request or one ticker event (with the fuel
bounding its scan). -/
inductive Cmd where
  | add (interval : Int) (times : Int) (key : Nat) (payload : Nat) (jobId : Nat)
  | update (key : Nat) (interval : Int) (payload : Nat)
  | remove (key : Nat)
  | tick (fuel : Nat)
deriving DecidableEq

/-- Processing of one event by the coordinator.  The public AddTask
(timewheel.go:97-102) drops a request with `interval <= 0` (or a nil key
or callback, unrepresentable here) before it ever reaches the coordinator,
hence the no-op; the other guards (`key == nil`) are likewise already
enforced at the channel send. -/
def step (tw : TimeWheel) : Cmd → Option TimeWheel
  | .add interval times key payload jobId =>
    if interval ≤ 0 then some tw
    else addTask tw { interval := interval, times := times, circle := 0,
                      key := key, payload := payload, jobId := jobId }
  | .update key interval payload => updateTask tw key interval payload
  | .remove key => removeTask tw key
  | .tick fuel => tickHandler fuel tw

/-- Side condition the data model imposes on commands: an Add key must be
unique among currently armed tasks (spec section 3). -/
def ValidCmd (tw : TimeWheel) : Cmd → Prop
  | .add _ _ key _ _ => timerLookup tw.timer key = none
  | _ => True

/-- States reachable from a freshly constructed wheel by any sequence of
valid commands and ticks that Go executes to completion. -/
inductive Reachable : TimeWheel → Prop
  | init (interval slotNum : Int) (tw : TimeWheel) :
      New interval slotNum = some tw → Reachable tw
  | step (tw : TimeWheel) (c : Cmd) (tw1 : TimeWheel) :
      Reachable tw → ValidCmd tw c → step tw c = some tw1 → Reachable tw1

/-- Iterated ticks, every tick given the same scan fuel. -/
def runTicks (fuel : Nat) : Nat → TimeWheel → Option TimeWheel
  | 0, tw => some tw
  | n + 1, tw =>
    match tickHandler fuel tw with
    | none => none
    | some tw1 => runTicks fuel n tw1

/-- Modelled from the claim C2 wording (spec section 4.2): a single pass
over the snapshot of the scanned slot, handling every task of the snapshot
exactly once; a fired periodic task is reinserted at the freshly computed
slot/circle and is not revisited, reinsertions into the scanned slot itself
being collected behind the kept tasks.  Defined from the specification
text, for comparison against `scanLoop` / `tickHandler`. -/
def claimScan : TimeWheel → List Task → List Task → List Task →
    Option (List Task × TimeWheel)
  | tw, [], kept, reins => some (kept ++ reins, tw)
  | tw, t :: rest, kept, reins =>
    if t.times = 0 then
      claimScan { tw with timer := timerErase tw.timer t.key } rest kept reins
    else if 0 < t.circle then
      claimScan tw rest (kept ++ [{ t with circle := t.circle - 1 }]) reins
    else
      let tw1 := { tw with dispatched := tw.dispatched ++ [t],
                           timer := timerErase tw.timer t.key }
      if 0 < t.times ∨ t.times = -1 then
        let t1 := if 0 < t.times then { t with times := t.times - 1 } else t
        match getPositionAndCircle tw1 t1.interval with
        | none => none
        | some (pos, circ) =>
          if 0 ≤ pos ∧ pos.toNat < tw1.slots.length then
            let t2 := { t1 with circle := circ }
            let tw2 := { tw1 with timer := timerInsert tw1.timer t1.key pos.toNat }
            if pos.toNat = tw1.currentPos then
              claimScan tw2 rest kept (reins ++ [t2])
            else
              claimScan
                { tw2 with slots := tw2.slots.set pos.toNat
                            (tw2.slots.getD pos.toNat [] ++ [t2]) }
                rest kept reins
          else none
      else
        claimScan tw1 rest kept reins

/-- Modelled from the claim C2 wording: scan the snapshot of the slot at
the cursor once, then advance the cursor by one modulo the slot count. -/
def claimTick (tw : TimeWheel) : Option TimeWheel :=
  if tw.currentPos < tw.slots.length then
    match claimScan tw (tw.slots.getD tw.currentPos []) [] [] with
    | none => none
    | some (final, tw1) =>
      some { tw1 with
             slots := tw1.slots.set tw.currentPos final,
             currentPos := if tw.currentPos = tw.slotNum - 1 then 0
                           else tw.currentPos + 1 }
  else none

/-- Does scanning task `t` of the slot at the cursor fire it and re-add it
into the very slot being scanned?  (Decidable test used as the side
condition of the amended claim C2.) -/
def rearmsToCurrent (tw : TimeWheel) (t : Task) : Bool :=
  if t.times = 0 then false
  else if 0 < t.circle then false
  else if 0 < t.times ∨ t.times = -1 then
    match getPositionAndCircle tw t.interval with
    | some (pos, _) => decide (0 ≤ pos ∧ pos.toNat = tw.currentPos)
    | none => false
  else false

/-- Structural well-formedness every wheel built by `New` has and every
operation preserves: a positive slot count, a slot array of exactly that
length, and a cursor within range. -/
def Wf (tw : TimeWheel) : Prop :=
  0 < tw.slotNum ∧ tw.slots.length = tw.slotNum ∧ tw.currentPos < tw.slotNum

/-- Registry/slot consistency of claim C4, over a slot array and a
registry: every task of every slot is registered at that slot's index, and
every registered key has exactly one task in the slot it points to. -/
def InvOn (slots : List (List Task)) (m : Timer) : Prop :=
  (∀ i, i < slots.length → ∀ t ∈ slots.getD i [], timerLookup m t.key = some i) ∧
  (∀ k i, timerLookup m k = some i →
    i < slots.length ∧ (slots.getD i []).countP (fun t => t.key == k) = 1)

/-- Registry/slot consistency of a wheel state. -/
def Inv (tw : TimeWheel) : Prop := InvOn tw.slots tw.timer

/-- A wheel whose only armed task is `t`, sitting in slot `p` (the shape of
the single-task runs of claim C5). -/
def OnlyTask (tw : TimeWheel) (p : Nat) (t : Task) : Prop :=
  Wf tw ∧ p < tw.slotNum ∧ 0 ≤ t.circle ∧
  tw.slots.getD p [] = [t] ∧
  (∀ i, i < tw.slotNum → i ≠ p → tw.slots.getD i [] = []) ∧
  tw.timer = [(t.key, p)]

/-- A wheel with no armed task at all. -/
def NoTasks (tw : TimeWheel) : Prop :=
  Wf tw ∧ (∀ i, i < tw.slotNum → tw.slots.getD i [] = []) ∧ tw.timer = []

/-- Number of slots the cursor must still advance (one per tick) before it
points at slot `p`, on a wheel of `n` slots. -/
def distTo (q p n : Nat) : Nat :=
  if q ≤ p then p - q else p + n - q

/-- Number of ticks before the cursor next scans slot `p` with the circle
of `t` already zero (the firing tick itself not counted). -/
def approachTicks (tw : TimeWheel) (p : Nat) (t : Task) : Nat :=
  t.circle.toNat * tw.slotNum + distTo tw.currentPos p tw.slotNum

/-- The slot a re-armed task with delay `d` lands in (getPositionAndCircle
rewritten over naturals, for positive delay and an interval of at least one
whole second). -/
def rearmPos (tw : TimeWheel) (d : Int) : Nat :=
  (tw.currentPos +
    d.toNat / 1000000000 / (tw.interval.toNat / 1000000000)) % tw.slotNum

/-- The circle a re-armed task with delay `d` receives. -/
def rearmCircle (tw : TimeWheel) (d : Int) : Nat :=
  d.toNat / 1000000000 / (tw.interval.toNat / 1000000000) / tw.slotNum

/-! ### Helper lemmas about the registry association list -/

theorem timerLookup_erase_self (m : Timer) (k : Nat) :
    timerLookup (timerErase m k) k = none := by
  induction m with
  | nil => rfl
  | cons e rest ih =>
    obtain ⟨k1, v⟩ := e
    by_cases h : k1 = k <;> simp [timerErase, timerLookup, h, ih]

theorem timerLookup_erase_ne (m : Timer) (k a : Nat) (h : a ≠ k) :
    timerLookup (timerErase m k) a = timerLookup m a := by
  have hka : ¬ (k = a) := by omega
  induction m with
  | nil => rfl
  | cons e rest ih =>
    obtain ⟨k1, v⟩ := e
    by_cases h1 : k1 = k
    · have h2 : k1 ≠ a := by omega
      simp [timerErase, timerLookup, h1, h2, hka, ih]
    · by_cases h2 : k1 = a <;> simp [timerErase, timerLookup, h1, h2, hka, h, ih]

theorem timerErase_of_lookup_none (m : Timer) (k : Nat)
    (h : timerLookup m k = none) : timerErase m k = m := by
  induction m with
  | nil => rfl
  | cons e rest ih =>
    obtain ⟨k1, v⟩ := e
    by_cases h1 : k1 = k
    · simp [timerLookup, h1] at h
    · simp [timerLookup, h1] at h
      simp [timerErase, h1, ih h]

theorem timerLookup_insert_self (m : Timer) (k v : Nat) :
    timerLookup (timerInsert m k v) k = some v := by
  simp [timerInsert, timerLookup]

theorem timerLookup_insert_ne (m : Timer) (k v a : Nat) (h : a ≠ k) :
    timerLookup (timerInsert m k v) a = timerLookup m a := by
  have h1 : k ≠ a := by omega
  simp [timerInsert, timerLookup, h1, timerLookup_erase_ne m k a h]

/-! ### Helper lemmas about slot arrays -/

theorem getD_set_self {α : Type} (l : List α) (i : Nat) (x d : α)
    (h : i < l.length) : (l.set i x).getD i d = x := by
  induction l generalizing i with
  | nil => simp at h
  | cons a rest ih =>
    cases i with
    | zero => rfl
    | succ n =>
      simp only [List.length_cons] at h
      have := ih n (by omega)
      simpa [List.set, List.getD] using this

theorem getD_set_ne {α : Type} (l : List α) (i j : Nat) (x d : α)
    (h : i ≠ j) : (l.set i x).getD j d = l.getD j d := by
  induction l generalizing i j with
  | nil => rfl
  | cons a rest ih =>
    cases i with
    | zero =>
      cases j with
      | zero => omega
      | succ n => rfl
    | succ m =>
      cases j with
      | zero => rfl
      | succ n =>
        have := ih m n (by omega)
        simpa [List.set, List.getD] using this

theorem set_getD_self {α : Type} (l : List α) (i : Nat) (x d : α)
    (h : l.getD i d = x) (hi : i < l.length) : l.set i x = l := by
  induction l generalizing i with
  | nil => simp at hi
  | cons a rest ih =>
    cases i with
    | zero =>
      simp [List.getD] at h
      simp [List.set, h]
    | succ n =>
      simp only [List.length_cons] at hi
      simp only [List.getD_cons_succ] at h
      simp [List.set, ih n h (by omega)]

theorem getD_length_le {α : Type} (l : List α) (i : Nat) (d : α)
    (h : l.length ≤ i) : l.getD i d = d := by
  induction l generalizing i with
  | nil => rfl
  | cons a rest ih =>
    cases i with
    | zero => simp at h
    | succ n =>
      simp only [List.length_cons] at h
      simpa [List.getD] using ih n (by omega)

/-! ### Helper lemmas about truncating integer division on naturals -/

theorem ofNat_tdiv (m n : Nat) :
    (Int.ofNat m).tdiv (Int.ofNat n) = Int.ofNat (m / n) := rfl

theorem ofNat_tmod (m n : Nat) :
    (Int.ofNat m).tmod (Int.ofNat n) = Int.ofNat (m % n) := rfl

theorem natCast_tdiv (m n : Nat) :
    ((m : Int)).tdiv ((n : Int)) = ((m / n : Nat) : Int) := rfl

theorem natCast_tmod (m n : Nat) :
    ((m : Int)).tmod ((n : Int)) = ((m % n : Nat) : Int) := rfl

theorem eraseP_append_of_none {α : Type} (l1 l2 : List α) (p : α → Bool)
    (h : ∀ a ∈ l1, p a = false) :
    (l1 ++ l2).eraseP p = l1 ++ l2.eraseP p := by
  induction l1 with
  | nil => rfl
  | cons a rest ih =>
    have ha : p a = false := h a (by simp)
    simp only [List.cons_append, List.eraseP_cons, ha, cond_false]
    rw [ih (fun b hb => h b (by simp [hb]))]

theorem timerErase_insert_self (m : Timer) (k v : Nat)
    (h : timerLookup m k = none) : timerErase (timerInsert m k v) k = m := by
  show timerErase ((k, v) :: timerErase m k) k = m
  rw [timerErase_of_lookup_none m k h]
  show (if k = k then timerErase m k else (k, v) :: timerErase m k) = m
  rw [if_pos rfl, timerErase_of_lookup_none m k h]

/-- Exact result of processing a valid Add command on a well-formed wheel
whose interval is at least one whole second: the Go arithmetic, rewritten
over naturals. -/
theorem step_add_eq (tw : TimeWheel) (d times : Int)
    (key payload jobId : Nat) (hwf : Wf tw) (hsec : nsPerSec ≤ tw.interval)
    (hd : 0 < d) :
    step tw (Cmd.add d times key payload jobId) = some
      { tw with
        slots := tw.slots.set
          ((tw.currentPos +
            d.toNat / 1000000000 / (tw.interval.toNat / 1000000000)) % tw.slotNum)
          (tw.slots.getD
            ((tw.currentPos +
              d.toNat / 1000000000 / (tw.interval.toNat / 1000000000)) % tw.slotNum) [] ++
           [{ interval := d, times := times,
              circle := ((d.toNat / 1000000000 / (tw.interval.toNat / 1000000000) /
                          tw.slotNum : Nat) : Int),
              key := key, payload := payload, jobId := jobId }]),
        timer := timerInsert tw.timer key
          ((tw.currentPos +
            d.toNat / 1000000000 / (tw.interval.toNat / 1000000000)) % tw.slotNum) } := by
  obtain ⟨hn, hlen, hcur⟩ := hwf
  have h9 : (0 : Int) < nsPerSec := by decide
  have hipos : (0 : Int) < tw.interval := by omega
  have hint : tw.interval = ((tw.interval.toNat : Nat) : Int) :=
    (Int.toNat_of_nonneg (le_of_lt hipos)).symm
  have hdint : d = ((d.toNat : Nat) : Int) :=
    (Int.toNat_of_nonneg (le_of_lt hd)).symm
  have hns : nsPerSec = (((1000000000 : Nat)) : Int) := rfl
  have him : 1000000000 ≤ tw.interval.toNat := by
    rw [hint, hns] at hsec
    exact_mod_cast hsec
  have hisec : 1 ≤ tw.interval.toNat / 1000000000 :=
    (Nat.one_le_div_iff (by omega)).mpr him
  have hdsec_i : durationSeconds tw.interval =
      ((tw.interval.toNat / 1000000000 : Nat) : Int) := by
    rw [durationSeconds, hns]
    conv_lhs => rw [hint]
    exact natCast_tdiv _ _
  have hdsec_d : durationSeconds d = ((d.toNat / 1000000000 : Nat) : Int) := by
    rw [durationSeconds, hns]
    conv_lhs => rw [hdint]
    exact natCast_tdiv _ _
  have hcond : ¬ (durationSeconds tw.interval = 0 ∨ tw.slotNum = 0) := by
    push_neg
    constructor
    · rw [hdsec_i]
      exact_mod_cast by omega
    · omega
  have hsteps : Int.tdiv (durationSeconds d) (durationSeconds tw.interval) =
      ((d.toNat / 1000000000 / (tw.interval.toNat / 1000000000) : Nat) : Int) := by
    rw [hdsec_d, hdsec_i]
    exact natCast_tdiv _ _
  have hpos : Int.tmod (Int.ofNat tw.currentPos +
        Int.tdiv (durationSeconds d) (durationSeconds tw.interval))
        (Int.ofNat tw.slotNum) =
      (((tw.currentPos +
         d.toNat / 1000000000 / (tw.interval.toNat / 1000000000)) % tw.slotNum : Nat) : Int) := by
    rw [hsteps, Int.ofNat_eq_natCast, Int.ofNat_eq_natCast, ← Nat.cast_add]
    exact natCast_tmod _ _
  have hcirc : Int.tdiv (Int.tdiv (durationSeconds d) (durationSeconds tw.interval))
        (Int.ofNat tw.slotNum) =
      ((d.toNat / 1000000000 / (tw.interval.toNat / 1000000000) /
        tw.slotNum : Nat) : Int) := by
    rw [hsteps, Int.ofNat_eq_natCast]
    exact natCast_tdiv _ _
  have hmodlt : (tw.currentPos +
      d.toNat / 1000000000 / (tw.interval.toNat / 1000000000)) % tw.slotNum <
      tw.slotNum := Nat.mod_lt _ hn
  have hguard : (0 : Int) ≤ (((tw.currentPos +
        d.toNat / 1000000000 / (tw.interval.toNat / 1000000000)) % tw.slotNum : Nat) : Int) ∧
      ((((tw.currentPos +
        d.toNat / 1000000000 / (tw.interval.toNat / 1000000000)) % tw.slotNum : Nat) : Int)).toNat <
        tw.slots.length := by
    constructor
    · exact_mod_cast Nat.zero_le _
    · rw [Int.toNat_natCast, hlen]
      exact hmodlt
  have hdneg : ¬ (d ≤ 0) := by omega
  simp only [step, if_neg hdneg, addTask, getPositionAndCircle, if_neg hcond,
    hpos, hcirc, if_pos hguard, Int.toNat_natCast]
  have hc2 : (0 : Int) ≤ (((tw.currentPos +
        d.toNat / 1000000000 / (tw.interval.toNat / 1000000000)) % tw.slotNum : Nat) : Int) ∧
      (tw.currentPos +
        d.toNat / 1000000000 / (tw.interval.toNat / 1000000000)) % tw.slotNum <
        tw.slots.length :=
    ⟨hguard.1, by rw [hlen]; exact hmodlt⟩
  rw [if_pos hc2]

/-! ### Claim C6 — construction validation -/

/-- C6: Create with interval at most 0 or slot count at most 0 always
fails (no wheel is produced); Create with positive interval and slot count
always yields a wheel whose cursor is 0 and whose slots are all empty. -/
theorem c6_new_validation :
    (∀ interval slotNum : Int, (interval ≤ 0 ∨ slotNum ≤ 0) →
      New interval slotNum = none) ∧
    (∀ interval slotNum : Int, 0 < interval → 0 < slotNum →
      ∃ tw, New interval slotNum = some tw ∧ tw.currentPos = 0 ∧
        tw.slotNum = slotNum.toNat ∧ tw.slots.length = slotNum.toNat ∧
        ∀ l ∈ tw.slots, l = []) := by
  constructor
  · intro i n h
    simp [New, h]
  · intro i n hi hn
    have hc : ¬ (i ≤ 0 ∨ n ≤ 0) := by omega
    refine ⟨{ interval := i, slots := List.replicate n.toNat [], timer := [],
              currentPos := 0, slotNum := n.toNat, dispatched := [] },
            ?_, rfl, rfl, by simp, ?_⟩
    · simp [New, hc]
    · intro l hl
      exact List.eq_of_mem_replicate hl

/-- Witness for C6: interval 0 is rejected, a 1-second 4-slot wheel is
accepted with cursor 0 and empty slots. -/
theorem c6_new_validation_witness :
    New 0 4 = none ∧
    ∃ tw, New 1000000000 4 = some tw ∧ tw.currentPos = 0 ∧
      tw.slotNum = (4 : Int).toNat ∧ tw.slots.length = (4 : Int).toNat ∧
      ∀ l ∈ tw.slots, l = [] :=
  ⟨c6_new_validation.1 0 4 (Or.inl (by decide)),
   c6_new_validation.2 1000000000 4 (by decide) (by decide)⟩

/-! ### Claim C7 — how construction failure is surfaced -/

/-- C7 counterexample: New with interval 0 returns Go's nil pointer
(modelled `none`).  The signature of New carries no error value at all, so
the construction failure is exactly the silent null return the claim says
never happens. -/
theorem c7_counterexample : New 0 4 = none := rfl

/-- C7 amended: a construction error is surfaced only as the nil (null)
wheel returned by New — invalid parameters always yield the null result
and valid parameters never do; there is no explicit failure value. -/
theorem c7_nil_on_invalid :
    ∀ interval slotNum : Int,
      New interval slotNum = none ↔ (interval ≤ 0 ∨ slotNum ≤ 0) := by
  intro i n
  by_cases h : i ≤ 0 ∨ n ≤ 0 <;> simp [New, h]

/-! ### Claim C9 — Update on an absent key -/

/-- C9: processing an Update command for a key absent from the registry
leaves the wheel state (slots, registry, cursor, dispatch log) identical
to the state before. -/
theorem c9_update_absent_noop :
    ∀ (tw : TimeWheel) (key : Nat) (interval : Int) (payload : Nat),
      timerLookup tw.timer key = none →
      step tw (Cmd.update key interval payload) = some tw := by
  intro tw key i p h
  simp [step, updateTask, h]

/-- Witness for C9 on a freshly built wheel and key 5. -/
theorem c9_update_absent_noop_witness :
    ∃ tw, New 1000000000 2 = some tw ∧
      step tw (Cmd.update 5 7 0) = some tw := by
  refine ⟨_, rfl, c9_update_absent_noop _ 5 7 0 rfl⟩

/-! ### Claim C3 — sub-second wheel intervals divide by zero -/

/-- C3: when the wheel interval truncates to zero whole seconds the
placement computation always hits Go's integer division by zero (modelled
`none`); hence every wheel accepted by New with a positive interval under
one second panics on every Add command it processes (such a command has a
positive delay, the AddTask guard having dropped the rest) and likewise on
every periodic re-arm, which calls the same computation in the same state.
With an interval of at least one whole second the placement arithmetic is
total on well-formed wheels. -/
theorem c3_subsecond_division_by_zero :
    (∀ (tw : TimeWheel) (d : Int), durationSeconds tw.interval = 0 →
      getPositionAndCircle tw d = none) ∧
    (∀ interval slotNum : Int, ∀ tw : TimeWheel,
      New interval slotNum = some tw → interval < nsPerSec →
      durationSeconds tw.interval = 0 ∧
      ∀ (d times : Int) (key payload jobId : Nat), 0 < d →
        step tw (Cmd.add d times key payload jobId) = none) ∧
    (∀ (tw : TimeWheel) (d : Int), Wf tw → nsPerSec ≤ tw.interval → 0 < d →
      (getPositionAndCircle tw d).isSome) := by
  refine ⟨?_, ?_, ?_⟩
  · intro tw d h
    simp [getPositionAndCircle, h]
  · intro i n tw hnew hsub
    have hguard : ¬ (i ≤ 0 ∨ n ≤ 0) := by
      intro h
      simp [New, h] at hnew
    have hi : 0 < i := by omega
    have htw : tw.interval = i := by
      simp [New, hguard] at hnew
      rw [← hnew]
    have hzero : durationSeconds tw.interval = 0 := by
      rw [htw]
      obtain ⟨m, rfl⟩ := Int.eq_ofNat_of_zero_le (le_of_lt hi)
      have hm : m < 1000000000 := by
        have := hsub
        simp only [nsPerSec] at this
        omega
      simp only [durationSeconds, nsPerSec]
      have h9 : ((1000000000 : Int)) = ((1000000000 : Nat) : Int) := rfl
      rw [h9, natCast_tdiv]
      simp [Nat.div_eq_of_lt hm]
    refine ⟨hzero, ?_⟩
    intro d times key payload jobId hd
    have hdneg : ¬ (d ≤ 0) := by omega
    simp [step, hdneg, addTask, getPositionAndCircle, hzero]
  · intro tw d hwf hsec hd
    obtain ⟨hn, hlen, hcur⟩ := hwf
    have hipos : (0 : Int) < tw.interval := by
      have : (0 : Int) < nsPerSec := by decide
      omega
    have hsecpos : 0 < durationSeconds tw.interval := by
      obtain ⟨m, hm⟩ := Int.eq_ofNat_of_zero_le (le_of_lt hipos)
      rw [hm]
      simp only [durationSeconds, nsPerSec]
      have h9 : ((1000000000 : Int)) = ((1000000000 : Nat) : Int) := rfl
      rw [h9, natCast_tdiv]
      have hm9 : 1000000000 ≤ m := by
        rw [hm] at hsec
        simp only [nsPerSec] at hsec
        omega
      have : 1 ≤ m / 1000000000 := (Nat.one_le_div_iff (by omega)).mpr hm9
      omega
    have hne : ¬ (durationSeconds tw.interval = 0 ∨ tw.slotNum = 0) := by
      push_neg
      exact ⟨by omega, by omega⟩
    simp [getPositionAndCircle, hne]

/-- Witness for C3: a half-second wheel panics on a 1-second add; a
one-second wheel computes a placement. -/
theorem c3_subsecond_division_by_zero_witness :
    (∃ tw, New 500000000 4 = some tw ∧
      step tw (Cmd.add 1000000000 1 1 0 0) = none) ∧
    (∃ tw1, New 1000000000 4 = some tw1 ∧
      (getPositionAndCircle tw1 600000000).isSome) := by
  constructor
  · refine ⟨_, rfl, ?_⟩
    exact (c3_subsecond_division_by_zero.2.1 500000000 4 _ rfl
      (by decide)).2 1000000000 1 1 0 0 (by decide)
  · refine ⟨_, rfl, ?_⟩
    exact c3_subsecond_division_by_zero.2.2 _ 600000000
      ⟨by decide, by decide, by decide⟩ (by decide) (by decide)

/-! ### Claim C1 — placement arithmetic of an Add command -/

/-- C1 counterexample: on a wheel with interval 1.5 s and 10 slots at
cursor 0, an Add with delay 3 s is recorded in slot 3 — the code divides
the whole-second truncations 3 / 1 — while the claim's formula
steps = floor(d / interval) gives 2, hence slot (0 + 2) mod 10 = 2. -/
theorem c1_counterexample :
    ∃ tw tw1, New 1500000000 10 = some tw ∧
      step tw (Cmd.add 3000000000 1 5 0 0) = some tw1 ∧
      timerLookup tw1.timer 5 = some 3 ∧
      (tw1.slots.getD 2 []).length = 0 ∧
      (tw1.slots.getD 3 []).length = 1 ∧
      Int.tdiv 3000000000 1500000000 = 2 ∧
      Int.tmod ((tw.currentPos : Int) + Int.tdiv 3000000000 1500000000)
        (tw.slotNum : Int) = 2 ∧
      ¬ (3 : Nat) = 2 := by
  refine ⟨_, _, rfl, rfl, ?_, ?_, ?_, ?_, ?_, by decide⟩ <;> decide

/-- C1 amended: processing a valid Add (delay d > 0) on a well-formed
wheel whose interval is at least one whole second places the task at
steps = floor(seconds(d)) / floor(seconds(interval)) — both durations
truncated to whole seconds first — with pos = (currentPos + steps) mod
slotNum and circle = steps / slotNum, relative to the cursor at processing
time; the claim's formula steps = floor(d / interval) agrees exactly
whenever the wheel interval is a whole number of seconds. -/
theorem c1_placement (tw : TimeWheel) (d times : Int)
    (key payload jobId : Nat) (hwf : Wf tw) (hsec : nsPerSec ≤ tw.interval)
    (hd : 0 < d) :
    step tw (Cmd.add d times key payload jobId) = some
      { tw with
        slots := tw.slots.set
          ((tw.currentPos +
            d.toNat / 1000000000 / (tw.interval.toNat / 1000000000)) % tw.slotNum)
          (tw.slots.getD
            ((tw.currentPos +
              d.toNat / 1000000000 / (tw.interval.toNat / 1000000000)) % tw.slotNum) [] ++
           [{ interval := d, times := times,
              circle := ((d.toNat / 1000000000 / (tw.interval.toNat / 1000000000) /
                          tw.slotNum : Nat) : Int),
              key := key, payload := payload, jobId := jobId }]),
        timer := timerInsert tw.timer key
          ((tw.currentPos +
            d.toNat / 1000000000 / (tw.interval.toNat / 1000000000)) % tw.slotNum) } ∧
    (Int.tmod tw.interval nsPerSec = 0 →
      ((d.toNat / 1000000000 / (tw.interval.toNat / 1000000000) : Nat) : Int) =
        Int.tdiv d tw.interval) := by
  constructor
  · exact step_add_eq tw d times key payload jobId hwf hsec hd
  · intro hwhole
    have h9 : (0 : Int) < nsPerSec := by decide
    have hipos : (0 : Int) < tw.interval := by
      have := hsec
      omega
    have hint : tw.interval = ((tw.interval.toNat : Nat) : Int) :=
      (Int.toNat_of_nonneg (le_of_lt hipos)).symm
    have hdint : d = ((d.toNat : Nat) : Int) :=
      (Int.toNat_of_nonneg (le_of_lt hd)).symm
    have hns : nsPerSec = (((1000000000 : Nat)) : Int) := rfl
    rw [hint, hns] at hwhole
    rw [natCast_tmod] at hwhole
    have hmod0 : tw.interval.toNat % 1000000000 = 0 := by exact_mod_cast hwhole
    have hdd : d.toNat / 1000000000 / (tw.interval.toNat / 1000000000) =
        d.toNat / tw.interval.toNat := by
      rw [Nat.div_div_eq_div_mul]
      congr 1
      omega
    rw [hdd]
    conv_rhs => rw [hdint, hint]
    rw [natCast_tdiv]

/-- Witness for C1 amended on a 2-second 4-slot wheel and a 5-second add:
steps 2, slot 2, circle 0. -/
theorem c1_placement_witness :
    step { interval := 2000000000, slots := [[], [], [], []], timer := [],
           currentPos := 0, slotNum := 4, dispatched := [] }
      (Cmd.add 5000000000 2 9 1 1) =
    some { interval := 2000000000,
           slots := [[], [],
             [{ interval := 5000000000, times := 2, circle := 0, key := 9,
                payload := 1, jobId := 1 }], []],
           timer := [(9, 2)], currentPos := 0, slotNum := 4,
           dispatched := [] } := by
  have h := (c1_placement
    { interval := 2000000000, slots := [[], [], [], []], timer := [],
      currentPos := 0, slotNum := 4, dispatched := [] }
    5000000000 2 9 1 1 ⟨by decide, by decide, by decide⟩ (by decide) (by decide)).1
  exact h.trans (by decide)

/-! ### Claim C10 — Update on a registered key overwrites in place -/

/-- C10: processing an Update for a registered key yields a state in which
only the recorded slot changes, and there only by replacing each task
carrying the key by a copy whose interval and payload are the new values:
key, circle, remaining runs, callback, slot membership, the registry, the
cursor and every other slot are unchanged — the task is not moved or
re-bucketed. -/
theorem c10_update_in_place (tw : TimeWheel) (key pos : Nat)
    (interval : Int) (payload : Nat)
    (hreg : timerLookup tw.timer key = some pos)
    (hlt : pos < tw.slots.length) :
    ∃ tw1, step tw (Cmd.update key interval payload) = some tw1 ∧
      tw1.timer = tw.timer ∧
      tw1.currentPos = tw.currentPos ∧
      tw1.slotNum = tw.slotNum ∧
      tw1.interval = tw.interval ∧
      tw1.dispatched = tw.dispatched ∧
      (∀ j, j ≠ pos → tw1.slots.getD j [] = tw.slots.getD j []) ∧
      tw1.slots.getD pos [] = (tw.slots.getD pos []).map
        (fun t => if t.key = key then
           { t with interval := interval, payload := payload } else t) ∧
      (∀ t : Task, t.key ≠ key →
        (if t.key = key then
           { t with interval := interval, payload := payload } else t) = t) ∧
      (∀ t : Task, t.key = key →
        (if t.key = key then
           { t with interval := interval, payload := payload } else t).key = t.key ∧
        (if t.key = key then
           { t with interval := interval, payload := payload } else t).circle = t.circle ∧
        (if t.key = key then
           { t with interval := interval, payload := payload } else t).times = t.times ∧
        (if t.key = key then
           { t with interval := interval, payload := payload } else t).jobId = t.jobId ∧
        (if t.key = key then
           { t with interval := interval, payload := payload } else t).interval = interval ∧
        (if t.key = key then
           { t with interval := interval, payload := payload } else t).payload = payload) := by
  set f : Task → Task := fun t =>
    if t.key = key then { t with interval := interval, payload := payload }
    else t with hf
  refine ⟨{ tw with slots := tw.slots.set pos ((tw.slots.getD pos []).map f) },
    ?_, rfl, rfl, rfl, rfl, rfl, ?_, ?_, ?_, ?_⟩
  · simp only [step, updateTask, hreg, if_pos hlt, hf]
  · intro j hj
    exact getD_set_ne _ _ _ _ _ (by omega)
  · exact getD_set_self _ _ _ _ hlt
  · intro t ht
    simp [ht]
  · intro t ht
    simp [ht]

/-- Witness for C10 on a two-slot wheel holding tasks with keys 9 and 4 in
slot 0: updating key 9 keeps the registry and rewrites slot 0 pointwise. -/
theorem c10_update_in_place_witness :
    ∃ tw1,
      step { interval := 1000000000,
             slots := [[{ interval := 3000000000, times := 2, circle := 1,
                          key := 9, payload := 3, jobId := 6 },
                        { interval := 2000000000, times := -1, circle := 0,
                          key := 4, payload := 8, jobId := 7 }], []],
             timer := [(9, 0), (4, 0)], currentPos := 0, slotNum := 2,
             dispatched := [] }
        (Cmd.update 9 5000000000 77) = some tw1 ∧
      tw1.timer = [(9, 0), (4, 0)] ∧
      tw1.slots.getD 0 [] =
        [{ interval := 5000000000, times := 2, circle := 1,
           key := 9, payload := 77, jobId := 6 },
         { interval := 2000000000, times := -1, circle := 0,
           key := 4, payload := 8, jobId := 7 }] := by
  obtain ⟨tw1, h1, h2, _, _, _, _, _, h8, _, _⟩ :=
    c10_update_in_place
      { interval := 1000000000,
        slots := [[{ interval := 3000000000, times := 2, circle := 1,
                     key := 9, payload := 3, jobId := 6 },
                   { interval := 2000000000, times := -1, circle := 0,
                     key := 4, payload := 8, jobId := 7 }], []],
        timer := [(9, 0), (4, 0)], currentPos := 0, slotNum := 2,
        dispatched := [] }
      9 0 5000000000 77 (by decide) (by decide)
  exact ⟨tw1, h1, h2, h8.trans (by decide)⟩

/-! ### Claim C8 — Add then Remove round-trips to the original state -/

/-- C8: on a well-formed wheel whose interval is at least one whole second
and in which key K is armed nowhere, processing AddTask with key K and
then RemoveTask(K), with no tick in between (so K never becomes due),
returns the wheel to exactly the original state; in particular the
dispatch log never grows (the callback is never invoked) and K is absent
from the registry. -/
theorem c8_add_remove_roundtrip (tw : TimeWheel) (d times : Int)
    (key payload jobId : Nat) (hwf : Wf tw) (hsec : nsPerSec ≤ tw.interval)
    (hd : 0 < d) (hfresh : timerLookup tw.timer key = none)
    (habs : ∀ i, i < tw.slots.length → ∀ t ∈ tw.slots.getD i [], t.key ≠ key) :
    ∃ tw1, step tw (Cmd.add d times key payload jobId) = some tw1 ∧
      tw1.dispatched = tw.dispatched ∧
      step tw1 (Cmd.remove key) = some tw ∧
      timerLookup tw.timer key = none := by
  have hadd := step_add_eq tw d times key payload jobId hwf hsec hd
  obtain ⟨hn, hlen, hcur⟩ := hwf
  set p := (tw.currentPos +
    d.toNat / 1000000000 / (tw.interval.toNat / 1000000000)) % tw.slotNum with hp
  set t2 : Task := { interval := d, times := times,
                     circle := ((d.toNat / 1000000000 /
                       (tw.interval.toNat / 1000000000) / tw.slotNum : Nat) : Int),
                     key := key, payload := payload, jobId := jobId } with ht2
  refine ⟨_, hadd, rfl, ?_, hfresh⟩
  have hlp : p < tw.slots.length := by
    rw [hlen, hp]
    exact Nat.mod_lt _ hn
  have hgl : ((tw.slots.set p (tw.slots.getD p [] ++ [t2])).getD p []) =
      tw.slots.getD p [] ++ [t2] :=
    getD_set_self _ _ _ _ hlp
  have hkey2 : t2.key = key := by rw [ht2]
  have herase : (tw.slots.getD p [] ++ [t2]).eraseP (fun t => t.key == key) =
      tw.slots.getD p [] := by
    rw [eraseP_append_of_none]
    · simp [List.eraseP, hkey2]
    · intro a ha
      have := habs _ hlp a ha
      simp [this]
  have hany : ((tw.slots.getD p [] ++ [t2]).any (fun t => t.key == key)) = true := by
    simp [hkey2]
  simp only [step, removeTask, timerLookup_insert_self, List.length_set,
    if_pos hlp, hgl, herase, hany, if_true]
  rw [List.set_set]
  rw [set_getD_self _ _ _ _ rfl hlp]
  rw [timerErase_insert_self _ _ _ hfresh]

/-- Witness for C8: add key 3 to a fresh 1-second 2-slot wheel with a
2-second delay, remove it again, and land exactly on the original state. -/
theorem c8_add_remove_roundtrip_witness :
    ∃ tw1,
      step { interval := 1000000000, slots := [[], []], timer := [],
             currentPos := 0, slotNum := 2, dispatched := [] }
        (Cmd.add 2000000000 1 3 0 0) = some tw1 ∧
      tw1.dispatched = [] ∧
      step tw1 (Cmd.remove 3) =
        some { interval := 1000000000, slots := [[], []], timer := [],
               currentPos := 0, slotNum := 2, dispatched := [] } ∧
      timerLookup [] 3 = none :=
  c8_add_remove_roundtrip
    { interval := 1000000000, slots := [[], []], timer := [],
      currentPos := 0, slotNum := 2, dispatched := [] }
    2000000000 1 3 0 0 ⟨by decide, by decide, by decide⟩ (by decide)
    (by decide) rfl (by decide)

/-! ### Claim C2 — per-tick processing of the scanned slot -/

theorem gpc_frame (tw1 tw2 : TimeWheel) (d : Int)
    (h1 : tw1.interval = tw2.interval) (h2 : tw1.currentPos = tw2.currentPos)
    (h3 : tw1.slotNum = tw2.slotNum) :
    getPositionAndCircle tw1 d = getPositionAndCircle tw2 d := by
  simp only [getPositionAndCircle, h1, h2, h3]

theorem rearmsToCurrent_false_elim (tw0 : TimeWheel) (t : Task)
    (h : rearmsToCurrent tw0 t = false)
    (ht0 : ¬ t.times = 0) (hc : ¬ 0 < t.circle)
    (hre : 0 < t.times ∨ t.times = -1)
    (pos circ : Int) (hg : getPositionAndCircle tw0 t.interval = some (pos, circ)) :
    ¬ (0 ≤ pos ∧ pos.toNat = tw0.currentPos) := by
  intro hcontra
  rw [rearmsToCurrent, if_neg ht0, if_neg hc, if_pos hre, hg] at h
  rw [decide_eq_false_iff_not] at h
  exact h hcontra

/-- The interval field of the re-added task equals the dispatched task's
interval: the decrement touches only `times`. -/
theorem rearm_interval_eq (t : Task) :
    (if 0 < t.times then { t with times := t.times - 1 } else t).interval =
      t.interval := by
  by_cases h : 0 < t.times <;> simp [h]

/-- The scan loop of the code coincides with the claim-worded single pass
whenever no scanned task re-arms into the scanned slot (computed against
the frame `tw0`, whose interval / cursor / slot count every intermediate
state shares). -/
theorem scanLoop_eq_claimScan (todo : List Task) :
    ∀ (fuel : Nat) (tw0 tw : TimeWheel) (kept : List Task),
    tw.interval = tw0.interval → tw.currentPos = tw0.currentPos →
    tw.slotNum = tw0.slotNum →
    todo.length + 1 ≤ fuel →
    (∀ t ∈ todo, rearmsToCurrent tw0 t = false) →
    scanLoop fuel tw todo kept = claimScan tw todo kept [] := by
  induction todo with
  | nil =>
    intro fuel tw0 tw kept h1 h2 h3 hfuel hno
    obtain ⟨f, rfl⟩ : ∃ f, fuel = f + 1 := ⟨fuel - 1, by omega⟩
    simp [scanLoop, claimScan]
  | cons t rest ih =>
    intro fuel tw0 tw kept h1 h2 h3 hfuel hno
    obtain ⟨f, rfl⟩ : ∃ f, fuel = f + 1 := ⟨fuel - 1, by omega⟩
    have hfr : rest.length + 1 ≤ f := by
      simp only [List.length_cons] at hfuel
      omega
    have hnor : ∀ t1 ∈ rest, rearmsToCurrent tw0 t1 = false :=
      fun t1 ht1 => hno t1 (by simp [ht1])
    have hnot := hno t (by simp)
    by_cases ht0 : t.times = 0
    · simp only [scanLoop, claimScan, if_pos ht0]
      exact ih f tw0 _ kept h1 h2 h3 hfr hnor
    · by_cases hc : 0 < t.circle
      · simp only [scanLoop, claimScan, if_neg ht0, if_pos hc]
        exact ih f tw0 tw _ h1 h2 h3 hfr hnor
      · by_cases hre : 0 < t.times ∨ t.times = -1
        · simp only [scanLoop, claimScan, if_neg ht0, if_neg hc, if_pos hre]
          have hframe : getPositionAndCircle
              { tw with dispatched := tw.dispatched ++ [t],
                        timer := timerErase tw.timer t.key }
              (if 0 < t.times then { t with times := t.times - 1 } else t).interval =
              getPositionAndCircle tw0 t.interval := by
            rw [rearm_interval_eq]
            exact gpc_frame _ _ _ h1 h2 h3
          rw [hframe]
          rcases hg : getPositionAndCircle tw0 t.interval with _ | ⟨pos, circ⟩
          · rfl
          · have hne := rearmsToCurrent_false_elim tw0 t hnot ht0 hc hre pos circ hg
            by_cases hguard : 0 ≤ pos ∧ pos.toNat < tw.slots.length
            · have hnec : ¬ (pos.toNat = tw.currentPos) := by
                intro hcontra
                exact hne ⟨hguard.1, by rw [← h2, hcontra]⟩
              simp only [if_pos hguard, if_neg hnec]
              exact ih f tw0 _ kept h1 h2 h3 hfr hnor
            · simp only [if_neg hguard]
        · simp only [scanLoop, claimScan, if_neg ht0, if_neg hc, if_neg hre]
          exact ih f tw0 _ kept h1 h2 h3 hfr hnor

/-- C2 counterexample: a reachable state (1-second wheel, 2 slots, built
by two adds and two ticks) in which the slot under scan holds a due
periodic task followed by a waiting one.  The code re-adds the fired task
into the very slot being scanned and then scans it again in the same tick,
decrementing its fresh circle from 1 to 0; the claim-worded single pass
leaves the reinserted circle at 1.  The tick the claim describes and the
tick the code performs produce different states. -/
theorem c2_counterexample :
    ∃ tw tw1 tw2,
      ((((New 1000000000 2).bind
          (fun w => step w (Cmd.add 2000000000 2 1 0 0))).bind
          (fun w => step w (Cmd.add 4000000000 1 2 0 0))).bind
          (fun w => step w (Cmd.tick 10))).bind
          (fun w => step w (Cmd.tick 10)) = some tw ∧
      tickHandler 10 tw = some tw1 ∧
      claimTick tw = some tw2 ∧
      tw1 ≠ tw2 ∧
      (tw1.slots.getD 0 []).map Task.circle = [0, 0] ∧
      (tw2.slots.getD 0 []).map Task.circle = [0, 1] := by
  refine ⟨_, _, _, rfl, rfl, rfl, by decide, by decide, by decide⟩

/-- C2 amended: on every tick in which no scanned task is re-armed into
the slot being scanned, the coordinator behaves exactly as the claim
describes — it scans the slot at currentPos once, evicting exhausted
tasks, decrementing positive circles, dispatching the rest and
re-inserting live periodic tasks at the position and circle recomputed
from the current cursor, then advances the cursor by one modulo slotCount
(`claimTick` is that description verbatim).  A task re-armed into the
scanned slot is instead scanned again within the same tick. -/
theorem c2_tick_snapshot (tw : TimeWheel) (fuel : Nat)
    (hfuel : (tw.slots.getD tw.currentPos []).length + 1 ≤ fuel)
    (hno : ∀ t ∈ tw.slots.getD tw.currentPos [], rearmsToCurrent tw t = false) :
    tickHandler fuel tw = claimTick tw := by
  by_cases h : tw.currentPos < tw.slots.length
  · simp only [tickHandler, claimTick, if_pos h]
    rw [scanLoop_eq_claimScan _ fuel tw tw _ rfl rfl rfl hfuel hno]
  · simp [tickHandler, claimTick, h]

/-- Witness for C2 amended: a tick over a slot holding an exhausted task,
a waiting task and a periodic task re-arming into the other slot agrees
with the claim-worded pass. -/
theorem c2_tick_snapshot_witness :
    tickHandler 5
      { interval := 1000000000,
        slots := [[{ interval := 2000000000, times := 0, circle := 0,
                     key := 1, payload := 0, jobId := 0 },
                   { interval := 2000000000, times := 3, circle := 2,
                     key := 2, payload := 0, jobId := 0 },
                   { interval := 2000000000, times := -1, circle := 0,
                     key := 3, payload := 0, jobId := 0 }], [], []],
        timer := [(1, 0), (2, 0), (3, 0)], currentPos := 0, slotNum := 3,
        dispatched := [] } =
    claimTick
      { interval := 1000000000,
        slots := [[{ interval := 2000000000, times := 0, circle := 0,
                     key := 1, payload := 0, jobId := 0 },
                   { interval := 2000000000, times := 3, circle := 2,
                     key := 2, payload := 0, jobId := 0 },
                   { interval := 2000000000, times := -1, circle := 0,
                     key := 3, payload := 0, jobId := 0 }], [], []],
        timer := [(1, 0), (2, 0), (3, 0)], currentPos := 0, slotNum := 3,
        dispatched := [] } :=
  c2_tick_snapshot _ 5 (by decide) (by decide)

/-! ### Claim C4 — registry/slot consistency on all reachable states -/

theorem getD_replicate_nil (n i : Nat) :
    ((List.replicate n ([] : List Task)).getD i []) = ([] : List Task) := by
  induction n generalizing i with
  | zero => rfl
  | succ k ih =>
    cases i with
    | zero => rfl
    | succ j =>
      rw [List.replicate_succ, List.getD_cons_succ]
      exact ih j

/-- No task with key `k` sits in any slot when `k` is absent from a
registry-consistent state. -/
theorem countP_zero_of_lookup_none (slots : List (List Task)) (m : Timer)
    (hL : ∀ i, i < slots.length → ∀ t ∈ slots.getD i [],
      timerLookup m t.key = some i)
    (k : Nat) (hk : timerLookup m k = none) (i : Nat) (hi : i < slots.length) :
    (slots.getD i []).countP (fun t => t.key == k) = 0 := by
  rw [List.countP_eq_zero]
  intro t ht hp
  have hkey : t.key = k := by simpa using hp
  have := hL i hi t ht
  rw [hkey, hk] at this
  exact Option.noConfusion this

/-- Removing the unique key-`k` task of a list zeroes its `k` count and
leaves every other key count unchanged. -/
theorem eraseP_key_effects (l : List Task) (key : Nat)
    (h1 : l.countP (fun t => t.key == key) = 1) :
    (l.eraseP (fun t => t.key == key)).countP (fun t => t.key == key) = 0 ∧
    (∀ k, k ≠ key →
      (l.eraseP (fun t => t.key == key)).countP (fun t => t.key == k) =
        l.countP (fun t => t.key == k)) := by
  induction l with
  | nil => simp at h1
  | cons a rest ih =>
    by_cases ha : a.key = key
    · have herase : (a :: rest).eraseP (fun t => t.key == key) = rest := by
        simp [List.eraseP_cons, ha]
      rw [List.countP_cons] at h1
      simp only [ha, beq_self_eq_true, if_pos] at h1
      have hr0 : rest.countP (fun t => t.key == key) = 0 := by omega
      refine ⟨by rw [herase]; exact hr0, ?_⟩
      intro k hk
      rw [herase, List.countP_cons]
      have : (a.key == k) = false := by
        rw [ha]
        exact beq_eq_false_iff_ne.mpr (fun hfk => hk hfk.symm)
      simp [this]
    · have herase : (a :: rest).eraseP (fun t => t.key == key) =
          a :: rest.eraseP (fun t => t.key == key) := by
        simp [List.eraseP_cons, ha]
      rw [List.countP_cons] at h1
      have hfa : (a.key == key) = false := by simpa using ha
      rw [hfa] at h1
      simp at h1
      have h1r : rest.countP (fun t => t.key == key) = 1 := h1
      obtain ⟨ih1, ih2⟩ := ih h1r
      constructor
      · rw [herase, List.countP_cons, hfa]
        simpa using ih1
      · intro k hk
        rw [herase, List.countP_cons, List.countP_cons, ih2 k hk]
theorem lookup_keys_ne (m : Timer) (k1 k2 : Nat) (i j : Nat)
    (h1 : timerLookup m k1 = some i) (h2 : timerLookup m k2 = some j)
    (hij : i ≠ j) : k1 ≠ k2 := by
  intro h
  rw [h, h2] at h1
  exact hij (Option.some.inj h1).symm

theorem countP_key_eq_zero_of_forall (l : List Task) (k : Nat)
    (h : ∀ t ∈ l, t.key ≠ k) : l.countP (fun t => t.key == k) = 0 :=
  List.countP_eq_zero.mpr (fun t ht hp => h t ht (by simpa using hp))

theorem forall_of_countP_key_zero (l : List Task) (k : Nat)
    (h : l.countP (fun t => t.key == k) = 0) : ∀ t ∈ l, t.key ≠ k := by
  intro t ht hk
  have := List.countP_eq_zero.mp h t ht
  exact this (by simpa using hk)

theorem countP_key_append_cons_ne (kept rest : List Task) (t : Task) (k : Nat)
    (hx : ¬ (t.key = k)) :
    (kept ++ t :: rest).countP (fun x => x.key == k) =
      (kept ++ rest).countP (fun x => x.key == k) := by
  rw [List.countP_append, List.countP_append, List.countP_cons]
  simp [beq_eq_false_iff_ne.mpr hx]

theorem countP_key_append_single_ne (l : List Task) (x : Task) (k : Nat)
    (hx : ¬ (x.key = k)) :
    (l ++ [x]).countP (fun t => t.key == k) = l.countP (fun t => t.key == k) := by
  rw [List.countP_append, List.countP_cons]
  simp [beq_eq_false_iff_ne.mpr hx]

theorem countP_key_append_single_eq (l : List Task) (x : Task) (k : Nat)
    (hx : x.key = k) :
    (l ++ [x]).countP (fun t => t.key == k) =
      l.countP (fun t => t.key == k) + 1 := by
  rw [List.countP_append, List.countP_cons]
  simp [hx]

/-- Loop invariant of scanAddRunTask: if the registry is consistent with
the slot array in which the scanned slot logically holds `kept ++ todo`,
it is consistent again at loop exit with the scanned slot holding the
returned list.  The cursor, slot count, wheel interval and slot-array
length never change during a scan. -/
theorem scanLoop_loopInv : ∀ (fuel : Nat) (tw : TimeWheel)
    (todo kept final : List Task) (tw1 : TimeWheel),
    scanLoop fuel tw todo kept = some (final, tw1) →
    tw.currentPos < tw.slots.length →
    (∀ t ∈ kept ++ todo, timerLookup tw.timer t.key = some tw.currentPos) →
    (∀ i, i < tw.slots.length → i ≠ tw.currentPos →
      ∀ t ∈ tw.slots.getD i [], timerLookup tw.timer t.key = some i) →
    (∀ k i, timerLookup tw.timer k = some i → i < tw.slots.length ∧
      (if i = tw.currentPos then kept ++ todo
       else tw.slots.getD i []).countP (fun t => t.key == k) = 1) →
    tw1.interval = tw.interval ∧ tw1.currentPos = tw.currentPos ∧
    tw1.slotNum = tw.slotNum ∧ tw1.slots.length = tw.slots.length ∧
    (∀ t ∈ final, timerLookup tw1.timer t.key = some tw.currentPos) ∧
    (∀ i, i < tw.slots.length → i ≠ tw.currentPos →
      ∀ t ∈ tw1.slots.getD i [], timerLookup tw1.timer t.key = some i) ∧
    (∀ k i, timerLookup tw1.timer k = some i → i < tw.slots.length ∧
      (if i = tw.currentPos then final
       else tw1.slots.getD i []).countP (fun t => t.key == k) = 1) := by
  intro fuel
  induction fuel with
  | zero =>
    intro tw todo kept final tw1 hscan
    simp [scanLoop] at hscan
  | succ f ih =>
    intro tw todo kept final tw1 hscan hcur hmem hoth hreg
    match todo with
    | [] =>
      simp only [scanLoop, Option.some.injEq, Prod.mk.injEq] at hscan
      obtain ⟨rfl, rfl⟩ := hscan
      exact ⟨rfl, rfl, rfl, rfl, by simpa using hmem, hoth, by simpa using hreg⟩
    | t :: rest =>
      have hlk : timerLookup tw.timer t.key = some tw.currentPos :=
        hmem t (by simp)
      have hcount : (kept ++ t :: rest).countP (fun x => x.key == t.key) = 1 := by
        have := (hreg t.key tw.currentPos hlk).2
        simpa using this
      have hsplit : kept.countP (fun x => x.key == t.key) = 0 ∧
          rest.countP (fun x => x.key == t.key) = 0 := by
        rw [List.countP_append, List.countP_cons] at hcount
        simp only [beq_self_eq_true, if_pos] at hcount
        constructor <;> omega
      have hkeptne : ∀ x ∈ kept, x.key ≠ t.key :=
        forall_of_countP_key_zero _ _ hsplit.1
      have hrestne : ∀ x ∈ rest, x.key ≠ t.key :=
        forall_of_countP_key_zero _ _ hsplit.2
      have hothne : ∀ i, i < tw.slots.length → i ≠ tw.currentPos →
          ∀ x ∈ tw.slots.getD i [], x.key ≠ t.key := by
        intro i hi hic x hx
        exact lookup_keys_ne tw.timer x.key t.key i tw.currentPos
          (hoth i hi hic x hx) hlk hic
      by_cases ht0 : t.times = 0
      · -- evicted without dispatch
        rw [scanLoop, if_pos ht0] at hscan
        apply ih { tw with timer := timerErase tw.timer t.key }
          rest kept final tw1 hscan hcur
        · intro x hx
          have hxo : x ∈ kept ++ t :: rest := by
            rcases List.mem_append.mp hx with h | h
            · exact List.mem_append.mpr (Or.inl h)
            · exact List.mem_append.mpr (Or.inr (by simp [h]))
          have hxne : x.key ≠ t.key := by
            rcases List.mem_append.mp hx with h | h
            · exact hkeptne x h
            · exact hrestne x h
          rw [timerLookup_erase_ne _ _ _ hxne]
          exact hmem x hxo
        · intro i hi hic x hx
          rw [timerLookup_erase_ne _ _ _ (hothne i hi hic x hx)]
          exact hoth i hi hic x hx
        · intro k i hki
          have hkne : k ≠ t.key := by
            intro h
            rw [h, timerLookup_erase_self] at hki
            exact Option.noConfusion hki
          rw [timerLookup_erase_ne _ _ _ hkne] at hki
          obtain ⟨hilt, hcnt⟩ := hreg k i hki
          refine ⟨hilt, ?_⟩
          by_cases hic : i = tw.currentPos
          · rw [if_pos hic] at hcnt ⊢
            rw [List.countP_append, List.countP_cons] at hcnt
            rw [List.countP_append]
            have : (t.key == k) = false :=
              beq_eq_false_iff_ne.mpr (fun h => hkne h.symm)
            rw [this] at hcnt
            simpa using hcnt
          · rw [if_neg hic] at hcnt ⊢
            exact hcnt
      · by_cases hcpos : 0 < t.circle
        · -- circle decremented, task kept in place
          rw [scanLoop, if_neg ht0, if_pos hcpos] at hscan
          have hres := ih tw rest (kept ++ [{ t with circle := t.circle - 1 }])
            final tw1 hscan hcur ?_ hoth ?_
          · exact hres
          · intro x hx
            rcases List.mem_append.mp hx with h | h
            · rcases List.mem_append.mp h with h1 | h1
              · exact hmem x (List.mem_append.mpr (Or.inl h1))
              · have hxt : x = { t with circle := t.circle - 1 } := by
                  simpa using h1
                rw [hxt]
                exact hlk
            · exact hmem x (List.mem_append.mpr (Or.inr (by simp [h])))
          · intro k i hki
            obtain ⟨hilt, hcnt⟩ := hreg k i hki
            refine ⟨hilt, ?_⟩
            by_cases hic : i = tw.currentPos
            · rw [if_pos hic] at hcnt ⊢
              rw [List.countP_append, List.countP_cons] at hcnt
              rw [List.countP_append, List.countP_append, List.countP_cons]
              simpa [Nat.add_assoc, Nat.add_comm, Nat.add_left_comm] using hcnt
            · rw [if_neg hic] at hcnt ⊢
              exact hcnt
        · -- due: dispatched
          rw [scanLoop, if_neg ht0, if_neg hcpos] at hscan
          by_cases hre : 0 < t.times ∨ t.times = -1
          · rw [if_pos hre] at hscan
            simp only [] at hscan
            have ht1i : (if 0 < t.times then { t with times := t.times - 1 }
                else t).interval = t.interval := rearm_interval_eq t
            have ht1k : (if 0 < t.times then { t with times := t.times - 1 }
                else t).key = t.key := by
              by_cases h : 0 < t.times <;> simp [h]
            rw [ht1i] at hscan
            have hgf : getPositionAndCircle
                { tw with dispatched := tw.dispatched ++ [t],
                          timer := timerErase tw.timer t.key } t.interval =
                getPositionAndCircle tw t.interval :=
              gpc_frame _ _ _ rfl rfl rfl
            rw [hgf] at hscan
            rw [ht1k] at hscan
            generalize ht1g : (if 0 < t.times then { t with times := t.times - 1 }
              else t : Task) = t1g at hscan
            rcases hg : getPositionAndCircle tw t.interval with _ | ⟨pos, circ⟩
            · rw [hg] at hscan
              exact Option.noConfusion hscan
            · rw [hg] at hscan
              simp only [] at hscan
              by_cases hguard : 0 ≤ pos ∧ pos.toNat < tw.slots.length
              · rw [if_pos hguard] at hscan
                set t2g : Task := { interval := t.interval, times := t1g.times,
                                    circle := circ, key := t.key,
                                    payload := t1g.payload,
                                    jobId := t1g.jobId } with ht2g
                have ht2gk : t2g.key = t.key := by rw [ht2g]
                have hmem2 : ∀ x ∈ kept ++ rest,
                    timerLookup (timerInsert (timerErase tw.timer t.key) t.key
                      pos.toNat) x.key = some tw.currentPos := by
                  intro x hx
                  have hxne : x.key ≠ t.key := by
                    rcases List.mem_append.mp hx with h | h
                    · exact hkeptne x h
                    · exact hrestne x h
                  rw [timerLookup_insert_ne _ _ _ _ hxne,
                    timerLookup_erase_ne _ _ _ hxne]
                  rcases List.mem_append.mp hx with h | h
                  · exact hmem x (List.mem_append.mpr (Or.inl h))
                  · exact hmem x (List.mem_append.mpr (Or.inr (by simp [h])))
                have hoth2 : ∀ i, i < tw.slots.length → i ≠ tw.currentPos →
                    ∀ x ∈ tw.slots.getD i [],
                    timerLookup (timerInsert (timerErase tw.timer t.key) t.key
                      pos.toNat) x.key = some i := by
                  intro i hi hic x hx
                  have hxne := hothne i hi hic x hx
                  rw [timerLookup_insert_ne _ _ _ _ hxne,
                    timerLookup_erase_ne _ _ _ hxne]
                  exact hoth i hi hic x hx
                have hregbase : ∀ k i,
                    timerLookup (timerInsert (timerErase tw.timer t.key) t.key
                      pos.toNat) k = some i →
                    (k = t.key ∧ i = pos.toNat) ∨
                    (k ≠ t.key ∧ timerLookup tw.timer k = some i) := by
                  intro k i hki
                  by_cases hk : k = t.key
                  · left
                    refine ⟨hk, ?_⟩
                    rw [hk, timerLookup_insert_self] at hki
                    exact (Option.some.inj hki).symm
                  · right
                    rw [timerLookup_insert_ne _ _ _ _ hk,
                      timerLookup_erase_ne _ _ _ hk] at hki
                    exact ⟨hk, hki⟩
                by_cases hpc : pos.toNat = tw.currentPos
                · rw [if_pos hpc] at hscan
                  cases rest with
                  | nil =>
                    simp only [Option.some.injEq, Prod.mk.injEq] at hscan
                    obtain ⟨rfl, rfl⟩ := hscan
                    refine ⟨rfl, rfl, rfl, rfl, ?_, ?_, ?_⟩
                    · intro x hx
                      rcases List.mem_append.mp hx with h | h
                      · exact hmem2 x (List.mem_append.mpr (Or.inl h))
                      · have hxk : x.key = t.key := by
                          simp only [List.mem_singleton] at h
                          rw [h, ht2g]
                        show timerLookup (timerInsert (timerErase tw.timer t.key)
                          t.key pos.toNat) x.key = some tw.currentPos
                        rw [hxk, timerLookup_insert_self, hpc]
                    · intro i hi hic x hx
                      exact hoth2 i hi hic x hx
                    · intro k i hki
                      rcases hregbase k i hki with ⟨hk, hi⟩ | ⟨hk, hlki⟩
                      · subst hk
                        subst hi
                        rw [hpc]
                        refine ⟨hcur, ?_⟩
                        rw [if_pos rfl]
                        rw [countP_key_append_single_eq _ _ _ ht2gk]
                        rw [countP_key_eq_zero_of_forall kept t.key hkeptne]
                      · obtain ⟨hilt, hcnt⟩ := hreg k i hlki
                        refine ⟨hilt, ?_⟩
                        have hne : ¬ (t.key = k) := fun h => hk h.symm
                        by_cases hic : i = tw.currentPos
                        · rw [if_pos hic] at hcnt ⊢
                          rw [countP_key_append_cons_ne _ _ _ _ hne] at hcnt
                          rw [countP_key_append_single_ne _ _ _
                            (by rw [ht2gk]; exact hne)]
                          simpa using hcnt
                        · rw [if_neg hic] at hcnt ⊢
                          exact hcnt
                  | cons r rs =>
                    simp only [] at hscan
                    have hres := ih _ _ _ _ _ hscan hcur ?_ ?_ ?_
                    · exact hres
                    · intro x hx
                      show timerLookup (timerInsert (timerErase tw.timer t.key)
                        t.key pos.toNat) x.key = some tw.currentPos
                      rcases List.mem_append.mp hx with h | h
                      · exact hmem2 x (List.mem_append.mpr (Or.inl h))
                      · rcases List.mem_append.mp h with h1 | h1
                        · exact hmem2 x (List.mem_append.mpr (Or.inr h1))
                        · have hxk : x.key = t.key := by
                            simp only [List.mem_singleton] at h1
                            rw [h1, ht2g]
                          rw [hxk, timerLookup_insert_self, hpc]
                    · intro i hi hic x hx
                      exact hoth2 i hi hic x hx
                    · intro k i hki
                      show i < tw.slots.length ∧
                        List.countP (fun x => x.key == k)
                          (if i = tw.currentPos then kept ++ ((r :: rs) ++ [t2g])
                           else tw.slots.getD i []) = 1
                      rcases hregbase k i hki with ⟨hk, hi⟩ | ⟨hk, hlki⟩
                      · subst hk
                        subst hi
                        rw [hpc]
                        refine ⟨hcur, ?_⟩
                        rw [if_pos rfl, ← List.append_assoc]
                        rw [countP_key_append_single_eq _ _ _ ht2gk]
                        rw [List.countP_append]
                        rw [countP_key_eq_zero_of_forall kept t.key hkeptne]
                        rw [countP_key_eq_zero_of_forall (r :: rs) t.key hrestne]
                      · obtain ⟨hilt, hcnt⟩ := hreg k i hlki
                        refine ⟨hilt, ?_⟩
                        have hne : ¬ (t.key = k) := fun h => hk h.symm
                        by_cases hic : i = tw.currentPos
                        · rw [if_pos hic] at hcnt ⊢
                          rw [countP_key_append_cons_ne _ _ _ _ hne] at hcnt
                          rw [← List.append_assoc]
                          rw [countP_key_append_single_ne _ _ _
                            (by rw [ht2gk]; exact hne)]
                          exact hcnt
                        · rw [if_neg hic] at hcnt ⊢
                          exact hcnt
                · rw [if_neg hpc] at hscan
                  have hplt : pos.toNat < tw.slots.length := hguard.2
                  have hpkeys : ∀ x ∈ tw.slots.getD pos.toNat [], x.key ≠ t.key :=
                    hothne pos.toNat hplt hpc
                  have hlen3 : (tw.slots.set pos.toNat
                      (tw.slots.getD pos.toNat [] ++ [t2g])).length =
                      tw.slots.length := List.length_set _ _ _
                  have hres := ih _ _ _ _ _ hscan ?_ ?_ ?_ ?_
                  · obtain ⟨e1, e2, e3, e4, r1, r2, r3⟩ := hres
                    refine ⟨e1, e2, e3, ?_, ?_, ?_, ?_⟩
                    · rw [e4]
                      exact hlen3
                    · intro x hx
                      exact r1 x hx
                    · intro i hi hic x hx
                      exact r2 i (by rw [hlen3]; exact hi) hic x hx
                    · intro k i hki
                      obtain ⟨hilt, hcnt⟩ := r3 k i hki
                      refine ⟨?_, hcnt⟩
                      rw [← hlen3]
                      exact hilt
                  · show tw.currentPos < (tw.slots.set pos.toNat
                      (tw.slots.getD pos.toNat [] ++ [t2g])).length
                    rw [hlen3]
                    exact hcur
                  · intro x hx
                    exact hmem2 x hx
                  · intro i hi hic x hx
                    show timerLookup (timerInsert (timerErase tw.timer t.key)
                      t.key pos.toNat) x.key = some i
                    have hi2 : i < tw.slots.length := by
                      rw [← hlen3]
                      exact hi
                    by_cases hip : i = pos.toNat
                    · rw [hip] at hx ⊢
                      rw [getD_set_self _ _ _ _ hplt] at hx
                      rcases List.mem_append.mp hx with h | h
                      · have hxne := hpkeys x h
                        rw [timerLookup_insert_ne _ _ _ _ hxne,
                          timerLookup_erase_ne _ _ _ hxne]
                        exact hoth _ hplt hpc x h
                      · have hxk : x.key = t.key := by
                          simp only [List.mem_singleton] at h
                          rw [h, ht2g]
                        rw [hxk, timerLookup_insert_self]
                    · rw [getD_set_ne _ _ _ _ _ (fun h => hip h.symm)] at hx
                      have hxne := hothne i hi2 hic x hx
                      rw [timerLookup_insert_ne _ _ _ _ hxne,
                        timerLookup_erase_ne _ _ _ hxne]
                      exact hoth i hi2 hic x hx
                  · intro k i hki
                    show i < (tw.slots.set pos.toNat
                        (tw.slots.getD pos.toNat [] ++ [t2g])).length ∧
                      List.countP (fun x => x.key == k)
                        (if i = tw.currentPos then kept ++ rest
                         else (tw.slots.set pos.toNat
                           (tw.slots.getD pos.toNat [] ++ [t2g])).getD i []) = 1
                    rcases hregbase k i hki with ⟨hk, hi⟩ | ⟨hk, hlki⟩
                    · subst hk
                      subst hi
                      refine ⟨by rw [hlen3]; exact hplt, ?_⟩
                      rw [if_neg hpc]
                      rw [getD_set_self _ _ _ _ hplt]
                      rw [countP_key_append_single_eq _ _ _ ht2gk]
                      rw [countP_key_eq_zero_of_forall _ t.key hpkeys]
                    · obtain ⟨hilt, hcnt⟩ := hreg k i hlki
                      refine ⟨by rw [hlen3]; exact hilt, ?_⟩
                      have hne : ¬ (t.key = k) := fun h => hk h.symm
                      by_cases hic : i = tw.currentPos
                      · rw [if_pos hic] at hcnt ⊢
                        rw [countP_key_append_cons_ne _ _ _ _ hne] at hcnt
                        exact hcnt
                      · rw [if_neg hic] at hcnt ⊢
                        by_cases hip : i = pos.toNat
                        · subst hip
                          rw [getD_set_self _ _ _ _ hplt]
                          rw [countP_key_append_single_ne _ _ _
                            (by rw [ht2gk]; exact hne)]
                          exact hcnt
                        · rw [getD_set_ne _ _ _ _ _ (fun h => hip h.symm)]
                          exact hcnt
              · rw [if_neg hguard] at hscan
                exact Option.noConfusion hscan
          · -- dispatched and dropped for good
            rw [if_neg hre] at hscan
            apply ih { tw with dispatched := tw.dispatched ++ [t],
                               timer := timerErase tw.timer t.key }
              rest kept final tw1 hscan hcur
            · intro x hx
              have hxo : x ∈ kept ++ t :: rest := by
                rcases List.mem_append.mp hx with h | h
                · exact List.mem_append.mpr (Or.inl h)
                · exact List.mem_append.mpr (Or.inr (by simp [h]))
              have hxne : x.key ≠ t.key := by
                rcases List.mem_append.mp hx with h | h
                · exact hkeptne x h
                · exact hrestne x h
              rw [timerLookup_erase_ne _ _ _ hxne]
              exact hmem x hxo
            · intro i hi hic x hx
              rw [timerLookup_erase_ne _ _ _ (hothne i hi hic x hx)]
              exact hoth i hi hic x hx
            · intro k i hki
              have hkne : k ≠ t.key := by
                intro h
                rw [h, timerLookup_erase_self] at hki
                exact Option.noConfusion hki
              rw [timerLookup_erase_ne _ _ _ hkne] at hki
              obtain ⟨hilt, hcnt⟩ := hreg k i hki
              refine ⟨hilt, ?_⟩
              by_cases hic : i = tw.currentPos
              · rw [if_pos hic] at hcnt ⊢
                rw [List.countP_append, List.countP_cons] at hcnt
                rw [List.countP_append]
                have : (t.key == k) = false :=
                  beq_eq_false_iff_ne.mpr (fun h => hkne h.symm)
                rw [this] at hcnt
                simpa using hcnt
              · rw [if_neg hic] at hcnt ⊢
                exact hcnt

/-- addTask preserves well-formedness and registry consistency when the
added key is not currently armed. -/
theorem addTask_preserves (tw tw1 : TimeWheel) (t : Task)
    (hwf : Wf tw) (hinv : Inv tw)
    (hfresh : timerLookup tw.timer t.key = none)
    (hadd : addTask tw t = some tw1) :
    Wf tw1 ∧ Inv tw1 := by
  obtain ⟨hn, hlen, hcur⟩ := hwf
  obtain ⟨hL, hR⟩ := hinv
  rw [addTask] at hadd
  rcases hg : getPositionAndCircle tw t.interval with _ | ⟨pos, circ⟩
  · rw [hg] at hadd
    exact Option.noConfusion hadd
  · rw [hg] at hadd
    simp only [] at hadd
    by_cases hguard : 0 ≤ pos ∧ pos.toNat < tw.slots.length
    · rw [if_pos hguard] at hadd
      obtain rfl := Option.some.inj hadd
      have hplt : pos.toNat < tw.slots.length := hguard.2
      have hslotkeys : ∀ i, i < tw.slots.length →
          ∀ x ∈ tw.slots.getD i [], x.key ≠ t.key := by
        intro i hi x hx hk
        have := hL i hi x hx
        rw [hk, hfresh] at this
        exact Option.noConfusion this
      constructor
      · exact ⟨hn, by rw [List.length_set]; exact hlen, hcur⟩
      · constructor
        · intro i hi x hx
          rw [List.length_set] at hi
          by_cases hip : i = pos.toNat
          · rw [hip] at hx ⊢
            rw [getD_set_self _ _ _ _ hplt] at hx
            rcases List.mem_append.mp hx with h | h
            · have hxne := hslotkeys pos.toNat hplt x h
              rw [timerLookup_insert_ne _ _ _ _ hxne]
              exact hL pos.toNat hplt x h
            · have hxk : x.key = t.key := by
                simp only [List.mem_singleton] at h
                rw [h]
              rw [hxk, timerLookup_insert_self]
          · rw [getD_set_ne _ _ _ _ _ (fun h => hip h.symm)] at hx
            have hxne := hslotkeys i hi x hx
            rw [timerLookup_insert_ne _ _ _ _ hxne]
            exact hL i hi x hx
        · intro k i hki
          by_cases hk : k = t.key
          · rw [hk, timerLookup_insert_self] at hki
            obtain rfl := (Option.some.inj hki).symm
            refine ⟨by rw [List.length_set]; exact hplt, ?_⟩
            rw [hk, getD_set_self _ _ _ _ hplt]
            rw [countP_key_append_single_eq (tw.slots.getD pos.toNat [])
              ({ t with circle := circ }) t.key rfl]
            rw [countP_key_eq_zero_of_forall _ t.key
              (hslotkeys pos.toNat hplt)]
          · rw [timerLookup_insert_ne _ _ _ _ hk] at hki
            obtain ⟨hilt, hcnt⟩ := hR k i hki
            refine ⟨by rw [List.length_set]; exact hilt, ?_⟩
            by_cases hip : i = pos.toNat
            · rw [hip, getD_set_self _ _ _ _ hplt]
              rw [countP_key_append_single_ne (tw.slots.getD pos.toNat [])
                ({ t with circle := circ }) k (fun h => hk (h.symm))]
              rw [← hip]
              exact hcnt
            · rw [getD_set_ne _ _ _ _ _ (fun h => hip h.symm)]
              exact hcnt
    · rw [if_neg hguard] at hadd
      exact Option.noConfusion hadd

/-- updateTask preserves well-formedness and registry consistency. -/
theorem updateTask_preserves (tw tw1 : TimeWheel) (key : Nat)
    (interval : Int) (payload : Nat)
    (hwf : Wf tw) (hinv : Inv tw)
    (hupd : updateTask tw key interval payload = some tw1) :
    Wf tw1 ∧ Inv tw1 := by
  obtain ⟨hn, hlen, hcur⟩ := hwf
  obtain ⟨hL, hR⟩ := hinv
  rw [updateTask] at hupd
  rcases hk : timerLookup tw.timer key with _ | pos
  · rw [hk] at hupd
    simp only [] at hupd
    obtain rfl := Option.some.inj hupd
    exact ⟨⟨hn, hlen, hcur⟩, hL, hR⟩
  · rw [hk] at hupd
    simp only [] at hupd
    by_cases hplt : pos < tw.slots.length
    · rw [if_pos hplt] at hupd
      obtain rfl := Option.some.inj hupd
      have hmapkey : ∀ x : Task,
          ((if x.key = key then
            { x with interval := interval, payload := payload }
            else x) : Task).key = x.key := by
        intro x
        by_cases h : x.key = key <;> simp [h]
      constructor
      · exact ⟨hn, by rw [List.length_set]; exact hlen, hcur⟩
      · constructor
        · intro i hi x hx
          rw [List.length_set] at hi
          by_cases hip : i = pos
          · rw [hip] at hx ⊢
            rw [getD_set_self _ _ _ _ hplt] at hx
            obtain ⟨y, hy, rfl⟩ := List.mem_map.mp hx
            rw [hmapkey y]
            exact hL pos hplt y hy
          · rw [getD_set_ne _ _ _ _ _ (fun h => hip h.symm)] at hx
            exact hL i hi x hx
        · intro k i hki
          obtain ⟨hilt, hcnt⟩ := hR k i hki
          refine ⟨by rw [List.length_set]; exact hilt, ?_⟩
          by_cases hip : i = pos
          · rw [hip, getD_set_self _ _ _ _ hplt]
            rw [List.countP_map]
            have hcomp : ((fun x : Task => x.key == k) ∘ (fun y : Task =>
                if y.key = key then
                  { y with interval := interval, payload := payload }
                else y)) = (fun y : Task => y.key == k) := by
              funext y
              simp only [Function.comp]
              rw [hmapkey y]
            rw [hcomp, ← hip]
            exact hcnt
          · rw [getD_set_ne _ _ _ _ _ (fun h => hip h.symm)]
            exact hcnt
    · rw [if_neg hplt] at hupd
      exact Option.noConfusion hupd

/-- removeTask preserves well-formedness and registry consistency. -/
theorem removeTask_preserves (tw tw1 : TimeWheel) (key : Nat)
    (hwf : Wf tw) (hinv : Inv tw)
    (hrem : removeTask tw key = some tw1) :
    Wf tw1 ∧ Inv tw1 := by
  obtain ⟨hn, hlen, hcur⟩ := hwf
  obtain ⟨hL, hR⟩ := hinv
  rw [removeTask] at hrem
  rcases hk : timerLookup tw.timer key with _ | pos
  · rw [hk] at hrem
    simp only [] at hrem
    obtain rfl := Option.some.inj hrem
    exact ⟨⟨hn, hlen, hcur⟩, hL, hR⟩
  · rw [hk] at hrem
    simp only [] at hrem
    by_cases hplt : pos < tw.slots.length
    · rw [if_pos hplt] at hrem
      obtain ⟨hposlt, hcnt1⟩ := hR key pos hk
      obtain ⟨hz, hkeep⟩ := eraseP_key_effects _ _ hcnt1
      by_cases hany : (tw.slots.getD pos []).any (fun x => x.key == key) = true
      · rw [if_pos hany] at hrem
        obtain rfl := Option.some.inj hrem
        have herasene : ∀ x ∈ (tw.slots.getD pos []).eraseP
            (fun x => x.key == key), x.key ≠ key :=
          forall_of_countP_key_zero _ _ hz
        constructor
        · exact ⟨hn, by rw [List.length_set]; exact hlen, hcur⟩
        · constructor
          · intro i hi x hx
            rw [List.length_set] at hi
            by_cases hip : i = pos
            · rw [hip] at hx ⊢
              rw [getD_set_self _ _ _ _ hplt] at hx
              have hxne := herasene x hx
              rw [timerLookup_erase_ne _ _ _ hxne]
              exact hL pos hplt x (List.mem_of_mem_eraseP hx)
            · rw [getD_set_ne _ _ _ _ _ (fun h => hip h.symm)] at hx
              have hxne : x.key ≠ key :=
                lookup_keys_ne tw.timer x.key key i pos
                  (hL i hi x hx) hk hip
              rw [timerLookup_erase_ne _ _ _ hxne]
              exact hL i hi x hx
          · intro k i hki
            have hkne : k ≠ key := by
              intro h
              rw [h, timerLookup_erase_self] at hki
              exact Option.noConfusion hki
            rw [timerLookup_erase_ne _ _ _ hkne] at hki
            obtain ⟨hilt, hcnt⟩ := hR k i hki
            refine ⟨by rw [List.length_set]; exact hilt, ?_⟩
            by_cases hip : i = pos
            · rw [hip, getD_set_self _ _ _ _ hplt]
              rw [hkeep k hkne, ← hip]
              exact hcnt
            · rw [getD_set_ne _ _ _ _ _ (fun h => hip h.symm)]
              exact hcnt
      · rw [if_neg hany] at hrem
        obtain rfl := Option.some.inj hrem
        exact ⟨⟨hn, hlen, hcur⟩, hL, hR⟩
    · rw [if_neg hplt] at hrem
      exact Option.noConfusion hrem

/-- tickHandler preserves well-formedness and registry consistency. -/
theorem tickHandler_preserves (fuel : Nat) (tw tw1 : TimeWheel)
    (hwf : Wf tw) (hinv : Inv tw)
    (htick : tickHandler fuel tw = some tw1) :
    Wf tw1 ∧ Inv tw1 := by
  obtain ⟨hn, hlen, hcur⟩ := hwf
  obtain ⟨hL, hR⟩ := hinv
  have hcl : tw.currentPos < tw.slots.length := by
    rw [hlen]
    exact hcur
  rw [tickHandler, if_pos hcl] at htick
  rcases hs : scanLoop fuel tw (tw.slots.getD tw.currentPos []) [] with
    _ | ⟨final, twS⟩
  · rw [hs] at htick
    exact Option.noConfusion htick
  · rw [hs] at htick
    simp only [] at htick
    obtain rfl := Option.some.inj htick
    obtain ⟨e1, e2, e3, e4, r1, r2, r3⟩ :=
      scanLoop_loopInv fuel tw (tw.slots.getD tw.currentPos []) [] final twS
        hs hcl
        (by
          intro x hx
          simp only [List.nil_append] at hx
          exact hL tw.currentPos hcl x hx)
        (fun i hi _ => hL i hi)
        (by
          intro k i hki
          obtain ⟨hilt, hcnt⟩ := hR k i hki
          refine ⟨hilt, ?_⟩
          by_cases hic : i = tw.currentPos
          · rw [if_pos hic]
            simp only [List.nil_append]
            rw [hic] at hcnt
            exact hcnt
          · rw [if_neg hic]
            exact hcnt)
    have hlenS : twS.slots.length = tw.slots.length := e4
    constructor
    · refine ⟨by rw [e3]; exact hn, ?_, ?_⟩
      · show (twS.slots.set tw.currentPos final).length = twS.slotNum
        rw [List.length_set, hlenS, e3, hlen]
      · show (if tw.currentPos = tw.slotNum - 1 then 0
          else tw.currentPos + 1) < twS.slotNum
        rw [e3]
        by_cases hlast : tw.currentPos = tw.slotNum - 1
        · rw [if_pos hlast]
          exact hn
        · rw [if_neg hlast]
          omega
    · constructor
      · intro i hi x hx
        show timerLookup twS.timer x.key = some i
        simp only [] at hi hx
        rw [List.length_set, hlenS] at hi
        by_cases hic : i = tw.currentPos
        · rw [hic] at hx ⊢
          rw [getD_set_self _ _ _ _ (by rw [hlenS]; exact hcl)] at hx
          exact r1 x hx
        · rw [getD_set_ne _ _ _ _ _ (fun h => hic h.symm)] at hx
          exact r2 i hi hic x hx
      · intro k i hki
        simp only [] at hki
        obtain ⟨hilt, hcnt⟩ := r3 k i hki
        refine ⟨?_, ?_⟩
        · show i < (twS.slots.set tw.currentPos final).length
          rw [List.length_set, hlenS]
          exact hilt
        · show ((twS.slots.set tw.currentPos final).getD i []).countP
            (fun x => x.key == k) = 1
          by_cases hic : i = tw.currentPos
          · rw [hic, getD_set_self _ _ _ _ (by rw [hlenS]; exact hcl)]
            rw [if_pos hic] at hcnt
            exact hcnt
          · rw [getD_set_ne _ _ _ _ _ (fun h => hic h.symm)]
            rw [if_neg hic] at hcnt
            exact hcnt

/-- Every coordinator step preserves well-formedness and registry
consistency, provided Add commands use fresh keys. -/
theorem step_preserves (tw tw1 : TimeWheel) (c : Cmd)
    (hwf : Wf tw) (hinv : Inv tw) (hvalid : ValidCmd tw c)
    (hstep : step tw c = some tw1) :
    Wf tw1 ∧ Inv tw1 := by
  cases c with
  | add interval times key payload jobId =>
    rw [step] at hstep
    by_cases hneg : interval ≤ 0
    · rw [if_pos hneg] at hstep
      obtain rfl := Option.some.inj hstep
      exact ⟨hwf, hinv⟩
    · rw [if_neg hneg] at hstep
      exact addTask_preserves tw tw1
        { interval := interval, times := times, circle := 0, key := key,
          payload := payload, jobId := jobId } hwf hinv hvalid hstep
  | update key interval payload =>
    exact updateTask_preserves tw tw1 key interval payload hwf hinv hstep
  | remove key =>
    exact removeTask_preserves tw tw1 key hwf hinv hstep
  | tick fuel =>
    exact tickHandler_preserves fuel tw tw1 hwf hinv hstep

/-- A freshly constructed wheel is well-formed and consistent. -/
theorem new_wf_inv (interval slotNum : Int) (tw : TimeWheel)
    (hnew : New interval slotNum = some tw) : Wf tw ∧ Inv tw := by
  rw [New] at hnew
  by_cases h : interval ≤ 0 ∨ slotNum ≤ 0
  · rw [if_pos h] at hnew
    exact Option.noConfusion hnew
  · rw [if_neg h] at hnew
    obtain rfl := Option.some.inj hnew
    push_neg at h
    refine ⟨⟨?_, by simp, ?_⟩, ?_, ?_⟩
    · show 0 < slotNum.toNat
      omega
    · show 0 < slotNum.toNat
      omega
    · intro i hi x hx
      rw [getD_replicate_nil] at hx
      exact absurd hx (List.not_mem_nil x)
    · intro k i hki
      exact Option.noConfusion hki

/-- Every reachable wheel state is well-formed and registry-consistent. -/
theorem reachable_wf_inv (tw : TimeWheel) (h : Reachable tw) :
    Wf tw ∧ Inv tw := by
  induction h with
  | init interval slotNum tw hnew => exact new_wf_inv interval slotNum tw hnew
  | step tw c tw1 _ hvalid hstep ih =>
    exact step_preserves tw tw1 c ih.1 ih.2 hvalid hstep

/-- C4: in every reachable wheel state — any sequence of Add, Update and
Remove commands and ticks, Add keys unique among currently armed tasks —
a task sits in a slot exactly when the registry maps its key to that
slot's index, and each registered key has exactly one task in the slot it
references. -/
theorem c4_registry_consistent (tw : TimeWheel) (h : Reachable tw) :
    Inv tw :=
  (reachable_wf_inv tw h).2

/-- Witness for C4: the state after one add on a fresh two-slot wheel is
reachable and consistent. -/
theorem c4_registry_consistent_witness :
    ∃ tw0 tw, New 1000000000 2 = some tw0 ∧
      step tw0 (Cmd.add 2000000000 3 1 0 0) = some tw ∧ Inv tw := by
  refine ⟨_, _, rfl, rfl, ?_⟩
  exact c4_registry_consistent _
    (Reachable.step _ (Cmd.add 2000000000 3 1 0 0) _
      (Reachable.init 1000000000 2 _ rfl) rfl rfl)

/-! ### Claim C5 — a task armed with runs = 3 -/

/-- Placement arithmetic over naturals, for a positive delay on a wheel
with at least one whole second per slot. -/
theorem gpc_eval (tw : TimeWheel) (d : Int) (hn : 0 < tw.slotNum)
    (hsec : nsPerSec ≤ tw.interval) (hd : 0 < d) :
    getPositionAndCircle tw d =
      some (((rearmPos tw d : Nat) : Int), ((rearmCircle tw d : Nat) : Int)) := by
  have h9 : (0 : Int) < nsPerSec := by decide
  have hipos : (0 : Int) < tw.interval := by omega
  have hint : tw.interval = ((tw.interval.toNat : Nat) : Int) :=
    (Int.toNat_of_nonneg (le_of_lt hipos)).symm
  have hdint : d = ((d.toNat : Nat) : Int) :=
    (Int.toNat_of_nonneg (le_of_lt hd)).symm
  have hns : nsPerSec = (((1000000000 : Nat)) : Int) := rfl
  have him : 1000000000 ≤ tw.interval.toNat := by
    rw [hint, hns] at hsec
    exact_mod_cast hsec
  have hisec : 1 ≤ tw.interval.toNat / 1000000000 :=
    (Nat.one_le_div_iff (by omega)).mpr him
  have hdsec_i : durationSeconds tw.interval =
      ((tw.interval.toNat / 1000000000 : Nat) : Int) := by
    rw [durationSeconds, hns]
    conv_lhs => rw [hint]
    exact natCast_tdiv _ _
  have hdsec_d : durationSeconds d = ((d.toNat / 1000000000 : Nat) : Int) := by
    rw [durationSeconds, hns]
    conv_lhs => rw [hdint]
    exact natCast_tdiv _ _
  have hcond : ¬ (durationSeconds tw.interval = 0 ∨ tw.slotNum = 0) := by
    push_neg
    refine ⟨?_, by omega⟩
    rw [hdsec_i]
    exact_mod_cast by omega
  have hsteps : Int.tdiv (durationSeconds d) (durationSeconds tw.interval) =
      ((d.toNat / 1000000000 / (tw.interval.toNat / 1000000000) : Nat) : Int) := by
    rw [hdsec_d, hdsec_i]
    exact natCast_tdiv _ _
  have hpos : Int.tmod (Int.ofNat tw.currentPos +
        Int.tdiv (durationSeconds d) (durationSeconds tw.interval))
        (Int.ofNat tw.slotNum) =
      (((tw.currentPos +
         d.toNat / 1000000000 / (tw.interval.toNat / 1000000000)) % tw.slotNum : Nat) : Int) := by
    rw [hsteps, Int.ofNat_eq_natCast, Int.ofNat_eq_natCast, ← Nat.cast_add]
    exact natCast_tmod _ _
  have hcirc : Int.tdiv (Int.tdiv (durationSeconds d) (durationSeconds tw.interval))
        (Int.ofNat tw.slotNum) =
      ((d.toNat / 1000000000 / (tw.interval.toNat / 1000000000) /
        tw.slotNum : Nat) : Int) := by
    rw [hsteps, Int.ofNat_eq_natCast]
    exact natCast_tdiv _ _
  rw [getPositionAndCircle]
  simp only []
  rw [if_neg hcond, hpos, hcirc, rearmPos, rearmCircle]

/-- Running `a + b` ticks is running `a` ticks and then `b` ticks. -/
theorem runTicks_add (fuel a : Nat) : ∀ (b : Nat) (tw : TimeWheel),
    runTicks fuel (a + b) tw =
      (runTicks fuel a tw).bind (fun tw1 => runTicks fuel b tw1) := by
  induction a with
  | zero =>
    intro b tw
    simp [runTicks]
  | succ n ih =>
    intro b tw
    have hcomm : n + 1 + b = (n + b) + 1 := by omega
    rw [hcomm, runTicks, runTicks]
    rcases tickHandler fuel tw with _ | tw1
    · simp
    · simp only []
      exact ih b tw1

/-- A tick over an empty scanned slot only advances the cursor. -/
theorem tick_empty (tw : TimeWheel) (hwf : Wf tw)
    (hempty : tw.slots.getD tw.currentPos [] = []) :
    ∀ fuel, 1 ≤ fuel → tickHandler fuel tw =
      some { tw with currentPos := if tw.currentPos = tw.slotNum - 1 then 0
                                   else tw.currentPos + 1 } := by
  intro fuel hfuel
  obtain ⟨f, rfl⟩ : ∃ f, fuel = f + 1 := ⟨fuel - 1, by omega⟩
  obtain ⟨hn, hlen, hcur⟩ := hwf
  have hcl : tw.currentPos < tw.slots.length := by rw [hlen]; exact hcur
  rw [tickHandler, if_pos hcl, hempty]
  rw [scanLoop]
  simp only []
  rw [set_getD_self _ _ _ _ hempty hcl]

/-- A tick that visits the only task while its circle is positive
decrements the circle and advances the cursor. -/
theorem tick_decr (tw : TimeWheel) (p : Nat) (t : Task)
    (h : OnlyTask tw p t) (hcurp : tw.currentPos = p)
    (ht0 : ¬ t.times = 0) (hcpos : 0 < t.circle) :
    ∀ fuel, 2 ≤ fuel → tickHandler fuel tw =
      some { tw with
             slots := tw.slots.set p [{ t with circle := t.circle - 1 }],
             currentPos := if tw.currentPos = tw.slotNum - 1 then 0
                           else tw.currentPos + 1 } := by
  intro fuel hfuel
  obtain ⟨f, rfl⟩ : ∃ f, fuel = f + 1 + 1 := ⟨fuel - 2, by omega⟩
  obtain ⟨⟨hn, hlen, hcur⟩, hp, hcle, hslotp, hslots0, htimer⟩ := h
  have hcl : tw.currentPos < tw.slots.length := by rw [hlen]; exact hcur
  rw [tickHandler, if_pos hcl, hcurp, hslotp]
  rw [scanLoop, if_neg ht0, if_pos hcpos]
  rw [scanLoop]
  simp only [List.nil_append]

/-- A tick that visits the only task once its run count is exhausted
silently removes it from the slot and the registry. -/
theorem tick_evict (tw : TimeWheel) (p : Nat) (t : Task)
    (h : OnlyTask tw p t) (hcurp : tw.currentPos = p) (ht0 : t.times = 0) :
    ∀ fuel, 2 ≤ fuel → tickHandler fuel tw =
      some { tw with
             slots := tw.slots.set p [],
             timer := [],
             currentPos := if tw.currentPos = tw.slotNum - 1 then 0
                           else tw.currentPos + 1 } := by
  intro fuel hfuel
  obtain ⟨f, rfl⟩ : ∃ f, fuel = f + 1 + 1 := ⟨fuel - 2, by omega⟩
  obtain ⟨⟨hn, hlen, hcur⟩, hp, hcle, hslotp, hslots0, htimer⟩ := h
  have hcl : tw.currentPos < tw.slots.length := by rw [hlen]; exact hcur
  have herase : timerErase tw.timer t.key = [] := by
    rw [htimer]
    simp [timerErase]
  rw [tickHandler, if_pos hcl, hcurp, hslotp]
  rw [scanLoop, if_pos ht0, herase]
  rw [scanLoop]

/-- A tick that visits the only task when it is due (circle 0, runs left)
dispatches it and re-arms it, with one fewer remaining run, at the slot and
circle recomputed from the current cursor. -/
theorem tick_fire (tw : TimeWheel) (p : Nat) (t : Task)
    (h : OnlyTask tw p t) (hcurp : tw.currentPos = p) (hc0 : t.circle = 0)
    (htpos : 0 < t.times) (hti : 0 < t.interval)
    (hsec : nsPerSec ≤ tw.interval) :
    ∃ tw1, (∀ fuel, 2 ≤ fuel → tickHandler fuel tw = some tw1) ∧
      OnlyTask tw1 (rearmPos tw t.interval)
        { t with times := t.times - 1,
                 circle := ((rearmCircle tw t.interval : Nat) : Int) } ∧
      tw1.interval = tw.interval ∧ tw1.slotNum = tw.slotNum ∧
      tw1.currentPos = (if p = tw.slotNum - 1 then 0 else p + 1) ∧
      tw1.dispatched = tw.dispatched ++ [t] := by
  obtain ⟨⟨hn, hlen, hcur⟩, hp, hcle, hslotp, hslots0, htimer⟩ := h
  have hcl : tw.currentPos < tw.slots.length := by
    rw [hlen]
    exact hcur
  have hpl : p < tw.slots.length := hcurp ▸ hcl
  have ht0 : ¬ t.times = 0 := by omega
  have hcpos : ¬ 0 < t.circle := by omega
  have hre : 0 < t.times ∨ t.times = -1 := Or.inl htpos
  have herase : timerErase tw.timer t.key = [] := by
    rw [htimer]
    simp [timerErase]
  have hpn : rearmPos tw t.interval < tw.slotNum := Nat.mod_lt _ hn
  have hpnl : rearmPos tw t.interval < tw.slots.length := by
    rw [hlen]
    exact hpn
  have hgpc := gpc_eval tw t.interval hn hsec hti
  have hguard : (0 : Int) ≤ ((rearmPos tw t.interval : Nat) : Int) ∧
      (((rearmPos tw t.interval : Nat) : Int)).toNat < tw.slots.length := by
    constructor
    · exact_mod_cast Nat.zero_le _
    · rw [Int.toNat_natCast]
      exact hpnl
  have hc2le : (0 : Int) ≤ ((rearmCircle tw t.interval : Nat) : Int) := by
    exact_mod_cast Nat.zero_le _
  by_cases hpp : rearmPos tw t.interval = p
  · refine ⟨{ tw with
        slots := tw.slots.set p
          [{ t with times := t.times - 1,
                    circle := ((rearmCircle tw t.interval : Nat) : Int) }],
        timer := [(t.key, rearmPos tw t.interval)],
        currentPos := if p = tw.slotNum - 1 then 0 else p + 1,
        dispatched := tw.dispatched ++ [t] }, ?_, ?_, rfl, rfl, rfl, rfl⟩
    · intro fuel hfuel
      obtain ⟨f, rfl⟩ : ∃ f, fuel = f + 1 + 1 := ⟨fuel - 2, by omega⟩
      rw [tickHandler, if_pos hcl, hcurp, hslotp]
      rw [scanLoop, if_neg ht0, if_neg hcpos, if_pos hre]
      simp only []
      rw [if_pos htpos, herase]
      simp only []
      have hgf : getPositionAndCircle
          { tw with dispatched := tw.dispatched ++ [t], timer := [] }
          t.interval = getPositionAndCircle tw t.interval :=
        gpc_frame _ _ _ rfl rfl rfl
      rw [hgf, hgpc]
      simp only []
      rw [if_pos hguard, Int.toNat_natCast, hcurp, if_pos hpp]
      simp only [List.nil_append]
      rw [hpp]
      rfl
    · refine ⟨⟨hn, ?_, ?_⟩, hpn, hc2le, ?_, ?_, rfl⟩
      · show (tw.slots.set p _).length = _
        rw [List.length_set]
        exact hlen
      · show (if p = tw.slotNum - 1 then 0 else p + 1) < tw.slotNum
        by_cases hlast : p = tw.slotNum - 1
        · rw [if_pos hlast]
          exact hn
        · rw [if_neg hlast]
          rw [hcurp] at hcur
          omega
      · show (tw.slots.set p _).getD (rearmPos tw t.interval) [] = _
        rw [hpp, getD_set_self _ _ _ _ hpl]
      · intro i hi hip
        show (tw.slots.set p _).getD i [] = []
        rw [hpp] at hip
        rw [getD_set_ne _ _ _ _ _ (fun hh => hip hh.symm)]
        exact hslots0 i hi hip
  · refine ⟨{ tw with
        slots := (tw.slots.set (rearmPos tw t.interval)
          [{ t with times := t.times - 1,
                    circle := ((rearmCircle tw t.interval : Nat) : Int) }]).set p [],
        timer := [(t.key, rearmPos tw t.interval)],
        currentPos := if p = tw.slotNum - 1 then 0 else p + 1,
        dispatched := tw.dispatched ++ [t] }, ?_, ?_, rfl, rfl, rfl, rfl⟩
    · intro fuel hfuel
      obtain ⟨f, rfl⟩ : ∃ f, fuel = f + 1 + 1 := ⟨fuel - 2, by omega⟩
      rw [tickHandler, if_pos hcl, hcurp, hslotp]
      rw [scanLoop, if_neg ht0, if_neg hcpos, if_pos hre]
      simp only []
      rw [if_pos htpos, herase]
      simp only []
      have hgf : getPositionAndCircle
          { tw with dispatched := tw.dispatched ++ [t], timer := [] }
          t.interval = getPositionAndCircle tw t.interval :=
        gpc_frame _ _ _ rfl rfl rfl
      rw [hgf, hgpc]
      simp only []
      rw [if_pos hguard, Int.toNat_natCast, hcurp, if_neg hpp]
      rw [hslots0 (rearmPos tw t.interval) hpn hpp]
      simp only [List.nil_append]
      rw [scanLoop]
      rfl
    · refine ⟨⟨hn, ?_, ?_⟩, hpn, hc2le, ?_, ?_, rfl⟩
      · show ((tw.slots.set (rearmPos tw t.interval) _).set p _).length = _
        rw [List.length_set, List.length_set]
        exact hlen
      · show (if p = tw.slotNum - 1 then 0 else p + 1) < tw.slotNum
        by_cases hlast : p = tw.slotNum - 1
        · rw [if_pos hlast]
          exact hn
        · rw [if_neg hlast]
          rw [hcurp] at hcur
          omega
      · show ((tw.slots.set (rearmPos tw t.interval) _).set p _).getD
          (rearmPos tw t.interval) [] = _
        rw [getD_set_ne _ _ _ _ _ (fun hh => hpp hh.symm)]
        rw [getD_set_self _ _ _ _ hpnl]
      · intro i hi hip
        show ((tw.slots.set (rearmPos tw t.interval) _).set p _).getD i [] = []
        by_cases hipp : i = p
        · rw [hipp, getD_set_self]
          rw [List.length_set]
          exact hpl
        · rw [getD_set_ne _ _ _ _ _ (fun hh => hipp hh.symm)]
          rw [getD_set_ne _ _ _ _ _ (fun hh => hip hh.symm)]
          exact hslots0 i hi hipp

/-- Advancing the cursor by one tick brings it one step closer to `p`. -/
theorem distTo_step (q p n : Nat) (hq : q < n) (hp : p < n) (hqp : q ≠ p) :
    0 < distTo q p n ∧
    distTo (if q = n - 1 then 0 else q + 1) p n = distTo q p n - 1 := by
  simp only [distTo]
  split_ifs <;> omega

/-- A task whose circle is already zero is unchanged by zeroing it. -/
theorem task_eta_circle (t : Task) (h : t.circle = 0) :
    ({ t with circle := 0 } : Task) = t := by
  obtain ⟨i, ti, c, k, pl, j⟩ := t
  simp only [] at h
  rw [h]

/-- Running `approachTicks` many ticks walks the cursor onto the slot of
the only armed task and burns its circle down to zero, dispatching
nothing. -/
theorem onlyTask_approach (μ : Nat) : ∀ (tw : TimeWheel) (p : Nat) (t : Task),
    OnlyTask tw p t → ¬ t.times = 0 → approachTicks tw p t = μ →
    ∃ tw1, (∀ fuel, 2 ≤ fuel → runTicks fuel μ tw = some tw1) ∧
      OnlyTask tw1 p { t with circle := 0 } ∧ tw1.currentPos = p ∧
      tw1.interval = tw.interval ∧ tw1.slotNum = tw.slotNum ∧
      tw1.dispatched = tw.dispatched := by
  induction μ with
  | zero =>
    intro tw p t h ht0 happ
    obtain ⟨⟨hn, hlen, hcur⟩, hp, hcle, hslotp, hslots0, htimer⟩ := h
    rw [approachTicks] at happ
    have hparts : t.circle.toNat * tw.slotNum = 0 ∧
        distTo tw.currentPos p tw.slotNum = 0 :=
      ⟨Nat.eq_zero_of_add_eq_zero_right happ,
       Nat.eq_zero_of_add_eq_zero_left happ⟩
    have hcirc : t.circle = 0 := by
      rcases Nat.mul_eq_zero.mp hparts.1 with h1 | h1
      · omega
      · omega
    have hqp : tw.currentPos = p := by
      have hd := hparts.2
      rw [distTo] at hd
      split_ifs at hd <;> omega
    refine ⟨tw, fun fuel _ => rfl, ?_, hqp, rfl, rfl, rfl⟩
    rw [task_eta_circle t hcirc]
    exact ⟨⟨hn, hlen, hcur⟩, hp, hcle, hslotp, hslots0, htimer⟩
  | succ μ ih =>
    intro tw p t h ht0 happ
    have hOT := h
    obtain ⟨⟨hn, hlen, hcur⟩, hp, hcle, hslotp, hslots0, htimer⟩ := h
    have hpl : p < tw.slots.length := by
      rw [hlen]
      exact hp
    by_cases hqp : tw.currentPos = p
    · have hcpos : 0 < t.circle := by
        rw [approachTicks, hqp] at happ
        have hdpp : distTo p p tw.slotNum = 0 := by
          rw [distTo]
          simp
        rw [hdpp] at happ
        rcases Nat.eq_zero_or_pos t.circle.toNat with h0 | h0
        · rw [h0] at happ
          simp at happ
        · omega
      have hstep := tick_decr tw p t hOT hqp ht0 hcpos
      have hOT1 : OnlyTask
          { tw with slots := tw.slots.set p [{ t with circle := t.circle - 1 }],
                    currentPos := if tw.currentPos = tw.slotNum - 1 then 0
                                  else tw.currentPos + 1 }
          p { t with circle := t.circle - 1 } := by
        refine ⟨⟨hn, ?_, ?_⟩, hp, ?_, ?_, ?_, htimer⟩
        · show (tw.slots.set p _).length = _
          rw [List.length_set]
          exact hlen
        · show (if tw.currentPos = tw.slotNum - 1 then 0
                else tw.currentPos + 1) < tw.slotNum
          by_cases hlast : tw.currentPos = tw.slotNum - 1
          · rw [if_pos hlast]
            exact hn
          · rw [if_neg hlast]
            omega
        · show (0 : Int) ≤ t.circle - 1
          omega
        · show (tw.slots.set p _).getD p [] = _
          rw [getD_set_self _ _ _ _ hpl]
        · intro i hi hip
          show (tw.slots.set p _).getD i [] = []
          rw [getD_set_ne _ _ _ _ _ (fun hh => hip hh.symm)]
          exact hslots0 i hi hip
      have happ1 : approachTicks
          { tw with slots := tw.slots.set p [{ t with circle := t.circle - 1 }],
                    currentPos := if tw.currentPos = tw.slotNum - 1 then 0
                                  else tw.currentPos + 1 }
          p { t with circle := t.circle - 1 } = μ := by
        have hdadv : distTo (if tw.currentPos = tw.slotNum - 1 then 0
            else tw.currentPos + 1) p tw.slotNum = tw.slotNum - 1 := by
          rw [hqp, distTo]
          split_ifs <;> omega
        obtain ⟨e, he⟩ : ∃ e, t.circle.toNat = e + 1 :=
          ⟨t.circle.toNat - 1, by omega⟩
        have hc1 : (t.circle - 1).toNat = e := by omega
        rw [approachTicks] at happ ⊢
        simp only []
        rw [hqp] at happ
        have hdpp : distTo p p tw.slotNum = 0 := by
          rw [distTo]
          simp
        rw [hdpp, he, Nat.succ_mul] at happ
        rw [hc1, hdadv]
        set E := e * tw.slotNum with hE
        omega
      obtain ⟨twF, hrun, hOTF, hcurF, hintF, hslotNumF, hdispF⟩ :=
        ih _ p { t with circle := t.circle - 1 } hOT1 ht0 happ1
      refine ⟨twF, ?_, hOTF, hcurF, hintF, hslotNumF, hdispF⟩
      intro fuel hfuel
      rw [runTicks, hstep fuel hfuel]
      exact hrun fuel hfuel
    · have hstep := tick_empty tw ⟨hn, hlen, hcur⟩ (hslots0 tw.currentPos hcur hqp)
      have hOT1 : OnlyTask
          { tw with currentPos := if tw.currentPos = tw.slotNum - 1 then 0
                                  else tw.currentPos + 1 } p t := by
        refine ⟨⟨hn, hlen, ?_⟩, hp, hcle, hslotp, hslots0, htimer⟩
        show (if tw.currentPos = tw.slotNum - 1 then 0
              else tw.currentPos + 1) < tw.slotNum
        by_cases hlast : tw.currentPos = tw.slotNum - 1
        · rw [if_pos hlast]
          exact hn
        · rw [if_neg hlast]
          omega
      have happ1 : approachTicks
          { tw with currentPos := if tw.currentPos = tw.slotNum - 1 then 0
                                  else tw.currentPos + 1 } p t = μ := by
        obtain ⟨hdpos, hdstep⟩ := distTo_step tw.currentPos p tw.slotNum hcur hp hqp
        rw [approachTicks] at happ ⊢
        simp only []
        rw [hdstep]
        set E := t.circle.toNat * tw.slotNum with hE
        omega
      obtain ⟨twF, hrun, hOTF, hcurF, hintF, hslotNumF, hdispF⟩ :=
        ih _ p t hOT1 ht0 happ1
      refine ⟨twF, ?_, hOTF, hcurF, hintF, hslotNumF, hdispF⟩
      intro fuel hfuel
      rw [runTicks, hstep fuel (by omega)]
      exact hrun fuel hfuel

/-- Once the only task's run count is exhausted, the remaining walk of the
cursor to its slot evicts it silently: no dispatch, empty registry. -/
theorem onlyTask_walk_evict (k : Nat) : ∀ (tw : TimeWheel) (p : Nat) (t : Task),
    OnlyTask tw p t → t.times = 0 → distTo tw.currentPos p tw.slotNum = k →
    ∃ tw1, (∀ fuel, 2 ≤ fuel → runTicks fuel (k + 1) tw = some tw1) ∧
      NoTasks tw1 ∧ tw1.interval = tw.interval ∧ tw1.slotNum = tw.slotNum ∧
      tw1.dispatched = tw.dispatched := by
  induction k with
  | zero =>
    intro tw p t h ht0 hd
    have hOT := h
    obtain ⟨⟨hn, hlen, hcur⟩, hp, hcle, hslotp, hslots0, htimer⟩ := h
    have hqp : tw.currentPos = p := by
      rw [distTo] at hd
      split_ifs at hd <;> omega
    have hstep := tick_evict tw p t hOT hqp ht0
    have hpl : p < tw.slots.length := by
      rw [hlen]
      exact hp
    refine ⟨{ tw with slots := tw.slots.set p [], timer := [],
                      currentPos := if tw.currentPos = tw.slotNum - 1 then 0
                                    else tw.currentPos + 1 },
            ?_, ⟨⟨hn, ?_, ?_⟩, ?_, rfl⟩, rfl, rfl, rfl⟩
    · intro fuel hfuel
      rw [runTicks, hstep fuel hfuel]
      rfl
    · show (tw.slots.set p []).length = _
      rw [List.length_set]
      exact hlen
    · show (if tw.currentPos = tw.slotNum - 1 then 0
            else tw.currentPos + 1) < tw.slotNum
      by_cases hlast : tw.currentPos = tw.slotNum - 1
      · rw [if_pos hlast]
        exact hn
      · rw [if_neg hlast]
        omega
    · intro i hi
      show (tw.slots.set p []).getD i [] = []
      by_cases hip : i = p
      · rw [hip, getD_set_self _ _ _ _ hpl]
      · rw [getD_set_ne _ _ _ _ _ (fun hh => hip hh.symm)]
        exact hslots0 i hi hip
  | succ k ih =>
    intro tw p t h ht0 hd
    have hOT := h
    obtain ⟨⟨hn, hlen, hcur⟩, hp, hcle, hslotp, hslots0, htimer⟩ := h
    have hqp : ¬ tw.currentPos = p := by
      intro hh
      rw [hh, distTo] at hd
      simp at hd
    have hstep := tick_empty tw ⟨hn, hlen, hcur⟩ (hslots0 tw.currentPos hcur hqp)
    obtain ⟨hdpos, hdstep⟩ := distTo_step tw.currentPos p tw.slotNum hcur hp hqp
    have hOT1 : OnlyTask
        { tw with currentPos := if tw.currentPos = tw.slotNum - 1 then 0
                                else tw.currentPos + 1 } p t := by
      refine ⟨⟨hn, hlen, ?_⟩, hp, hcle, hslotp, hslots0, htimer⟩
      show (if tw.currentPos = tw.slotNum - 1 then 0
            else tw.currentPos + 1) < tw.slotNum
      by_cases hlast : tw.currentPos = tw.slotNum - 1
      · rw [if_pos hlast]
        exact hn
      · rw [if_neg hlast]
        omega
    have hd1 : distTo (if tw.currentPos = tw.slotNum - 1 then 0
        else tw.currentPos + 1) p tw.slotNum = k := by
      rw [hdstep, hd]
      omega
    obtain ⟨tw1, hrun, hno, hint, hsn, hdisp⟩ := ih _ p t hOT1 ht0 hd1
    refine ⟨tw1, ?_, hno, hint, hsn, hdisp⟩
    intro fuel hfuel
    rw [runTicks, hstep fuel (by omega)]
    exact hrun fuel hfuel

/-- An empty wheel stays empty under ticking: only the cursor moves. -/
theorem noTasks_run (m : Nat) : ∀ (tw : TimeWheel), NoTasks tw →
    ∀ fuel, 1 ≤ fuel → ∃ tw2, runTicks fuel m tw = some tw2 ∧ NoTasks tw2 ∧
      tw2.interval = tw.interval ∧ tw2.slotNum = tw.slotNum ∧
      tw2.dispatched = tw.dispatched := by
  induction m with
  | zero =>
    intro tw h fuel hf
    exact ⟨tw, rfl, h, rfl, rfl, rfl⟩
  | succ m ih =>
    intro tw h fuel hf
    obtain ⟨⟨hn, hlen, hcur⟩, hslots, htimer⟩ := h
    have hstep := tick_empty tw ⟨hn, hlen, hcur⟩ (hslots tw.currentPos hcur)
    have hN1 : NoTasks
        { tw with currentPos := if tw.currentPos = tw.slotNum - 1 then 0
                                else tw.currentPos + 1 } := by
      refine ⟨⟨hn, hlen, ?_⟩, hslots, htimer⟩
      show (if tw.currentPos = tw.slotNum - 1 then 0
            else tw.currentPos + 1) < tw.slotNum
      by_cases hlast : tw.currentPos = tw.slotNum - 1
      · rw [if_pos hlast]
        exact hn
      · rw [if_neg hlast]
        omega
    obtain ⟨tw2, hr, hh, hint, hsn, hdisp⟩ := ih _ hN1 fuel hf
    refine ⟨tw2, ?_, hh, hint, hsn, hdisp⟩
    rw [runTicks, hstep fuel hf]
    exact hr

/-- Full lifecycle of the only armed task with `m` remaining runs: after
finitely many ticks it has been dispatched exactly `m` times (each fired
record carrying its key, callback id and payload) and the wheel is empty. -/
theorem onlyTask_run (m : Nat) : ∀ (tw : TimeWheel) (p : Nat) (t : Task),
    OnlyTask tw p t → t.times = Int.ofNat m → 0 < t.interval →
    nsPerSec ≤ tw.interval →
    ∃ N twF fired,
      (∀ fuel, 2 ≤ fuel → runTicks fuel N tw = some twF) ∧
      NoTasks twF ∧ twF.interval = tw.interval ∧ twF.slotNum = tw.slotNum ∧
      twF.dispatched = tw.dispatched ++ fired ∧ fired.length = m ∧
      (∀ x ∈ fired, x.key = t.key ∧ x.jobId = t.jobId ∧
        x.payload = t.payload) := by
  induction m with
  | zero =>
    intro tw p t hOT htimes hti hsec
    have ht0 : t.times = 0 := htimes
    obtain ⟨tw1, hrun, hno, hint, hsn, hdisp⟩ :=
      onlyTask_walk_evict (distTo tw.currentPos p tw.slotNum) tw p t hOT ht0 rfl
    refine ⟨distTo tw.currentPos p tw.slotNum + 1, tw1, [], hrun, hno, hint,
      hsn, ?_, rfl, ?_⟩
    · rw [hdisp, List.append_nil]
    · intro x hx
      simp at hx
  | succ m ih =>
    intro tw p t hOT htimes hti hsec
    have ht0 : ¬ t.times = 0 := by
      rw [htimes]
      simp only [Int.ofNat_eq_natCast]
      omega
    obtain ⟨tw1, hrun1, hOT1, hcur1, hint1, hsn1, hdisp1⟩ :=
      onlyTask_approach (approachTicks tw p t) tw p t hOT ht0 rfl
    have htpos : (0 : Int) < t.times := by
      rw [htimes]
      simp only [Int.ofNat_eq_natCast]
      omega
    have hsec1 : nsPerSec ≤ tw1.interval := by
      rw [hint1]
      exact hsec
    obtain ⟨tw2, hfire, hOT2, hint2, hsn2, hcur2, hdisp2⟩ :=
      tick_fire tw1 p { t with circle := 0 } hOT1 hcur1 rfl htpos hti hsec1
    have htimes2 : (t.times - 1 : Int) = Int.ofNat m := by
      rw [htimes]
      simp only [Int.ofNat_eq_natCast]
      omega
    have hsec2 : nsPerSec ≤ tw2.interval := by
      rw [hint2]
      exact hsec1
    obtain ⟨N2, twF, fired2, hrun2, hnoF, hintF, hsnF, hdispF, hlenF, hkeyF⟩ :=
      ih tw2 (rearmPos tw1 ({ t with circle := 0 } : Task).interval)
        { ({ t with circle := 0 } : Task) with
          times := ({ t with circle := 0 } : Task).times - 1,
          circle := ((rearmCircle tw1 ({ t with circle := 0 } : Task).interval
            : Nat) : Int) }
        hOT2 htimes2 hti hsec2
    refine ⟨approachTicks tw p t + (1 + N2), twF,
      ({ t with circle := 0 } : Task) :: fired2, ?_, hnoF, ?_, ?_, ?_, ?_, ?_⟩
    · intro fuel hfuel
      rw [runTicks_add fuel _ _ tw, hrun1 fuel hfuel]
      show runTicks fuel (1 + N2) tw1 = some twF
      rw [runTicks_add fuel 1 N2 tw1]
      have h1 : runTicks fuel 1 tw1 = some tw2 := by
        rw [runTicks, hfire fuel hfuel]
        rfl
      rw [h1]
      exact hrun2 fuel hfuel
    · rw [hintF, hint2, hint1]
    · rw [hsnF, hsn2, hsn1]
    · rw [hdispF, hdisp2, hdisp1, List.append_assoc]
      rfl
    · simp [hlenF]
    · intro x hx
      rcases List.mem_cons.mp hx with hx1 | hx2
      · rw [hx1]
        exact ⟨rfl, rfl, rfl⟩
      · exact hkeyF x hx2

/-- C5 counterexample: 1-second wheel with 2 slots, one task with key 7
and times = 3.  On the tick carrying the third dispatch the task is not
removed: scanAddRunTask re-adds it (with times now 0) to its next slot and
re-registers its key, so immediately after the third dispatch the key is
still in the registry and a record with its key still sits in slot 0.
Only the next visit of that slot silently evicts it. -/
theorem c5_counterexample :
    ∃ tw0 tw1 tw tw2,
      New 1000000000 2 = some tw0 ∧
      step tw0 (Cmd.add 1000000000 3 7 0 0) = some tw1 ∧
      runTicks 10 4 tw1 = some tw ∧
      tw.dispatched.length = 3 ∧
      (∀ x ∈ tw.dispatched, x.key = 7) ∧
      timerLookup tw.timer 7 = some 0 ∧
      (tw.slots.getD 0 []).map Task.key = [7] ∧
      tickHandler 10 tw = some tw2 ∧
      tw2.dispatched.length = 3 ∧
      timerLookup tw2.timer 7 = none ∧
      (∀ i, i < tw2.slotNum → tw2.slots.getD i [] = []) := by
  refine ⟨_, _, _, _, rfl, rfl, rfl, by decide, by decide, by decide,
    by decide, rfl, by decide, by decide, by decide⟩

/-- C5 amended: an only armed task with times = 3 (positive delay, wheel
interval at least one whole second) is dispatched exactly 3 times: after
finitely many ticks the dispatch log has grown by exactly 3 records, each
carrying the task's key, callback id and payload, the key is absent from
the registry and every slot is empty — and they remain absent, with no
further dispatches, over every number of further ticks.  (The removal is
not immediate at the third dispatch: the fired task is first re-inserted
with times = 0 and only evicted when the cursor next reaches its slot, as
the counterexample shows.) -/
theorem c5_exactly_three (tw : TimeWheel) (p : Nat) (t : Task)
    (h : OnlyTask tw p t) (h3 : t.times = 3) (hti : 0 < t.interval)
    (hsec : nsPerSec ≤ tw.interval) :
    ∃ N twF fired,
      (∀ fuel, 2 ≤ fuel → runTicks fuel N tw = some twF) ∧
      twF.dispatched = tw.dispatched ++ fired ∧
      fired.length = 3 ∧
      (∀ x ∈ fired, x.key = t.key ∧ x.jobId = t.jobId ∧
        x.payload = t.payload) ∧
      timerLookup twF.timer t.key = none ∧
      (∀ i, i < twF.slotNum → twF.slots.getD i [] = []) ∧
      (∀ m fuel, 2 ≤ fuel → ∃ tw2, runTicks fuel m twF = some tw2 ∧
        timerLookup tw2.timer t.key = none ∧
        (∀ i, i < tw2.slotNum → tw2.slots.getD i [] = []) ∧
        tw2.dispatched = twF.dispatched) := by
  obtain ⟨N, twF, fired, hrun, hno, hint, hsn, hdisp, hlen, hkey⟩ :=
    onlyTask_run 3 tw p t h (by rw [h3]; rfl) hti hsec
  obtain ⟨⟨hn, hlenF, hcurF⟩, hslotsF, htimerF⟩ := hno
  refine ⟨N, twF, fired, hrun, hdisp, hlen, hkey, ?_, hslotsF, ?_⟩
  · rw [htimerF]
    rfl
  · intro m fuel hfuel
    obtain ⟨tw2, hr2, hno2, hint2, hsn2, hdisp2⟩ :=
      noTasks_run m twF ⟨⟨hn, hlenF, hcurF⟩, hslotsF, htimerF⟩ fuel (by omega)
    obtain ⟨hwf2, hslots2, htimer2⟩ := hno2
    refine ⟨tw2, hr2, ?_, hslots2, hdisp2⟩
    rw [htimer2]
    rfl

/-- Witness for C5 on a 1-second 2-slot wheel holding one task with key 7
and times = 3. -/
theorem c5_exactly_three_witness :
    ∃ tw t, OnlyTask tw 1 t ∧ t.times = 3 ∧ 0 < t.interval ∧
      nsPerSec ≤ tw.interval ∧
      ∃ N twF fired,
        (∀ fuel, 2 ≤ fuel → runTicks fuel N tw = some twF) ∧
        twF.dispatched = tw.dispatched ++ fired ∧
        fired.length = 3 ∧
        (∀ x ∈ fired, x.key = t.key ∧ x.jobId = t.jobId ∧
          x.payload = t.payload) ∧
        timerLookup twF.timer t.key = none ∧
        (∀ i, i < twF.slotNum → twF.slots.getD i [] = []) ∧
        (∀ m fuel, 2 ≤ fuel → ∃ tw2, runTicks fuel m twF = some tw2 ∧
          timerLookup tw2.timer t.key = none ∧
          (∀ i, i < tw2.slotNum → tw2.slots.getD i [] = []) ∧
          tw2.dispatched = twF.dispatched) :=
  ⟨⟨1000000000, [[], [⟨1000000000, 3, 0, 7, 0, 0⟩]], [(7, 1)], 0, 2, []⟩,
   ⟨1000000000, 3, 0, 7, 0, 0⟩,
   by unfold OnlyTask Wf; decide, by decide, by decide, by decide,
   c5_exactly_three
     ⟨1000000000, [[], [⟨1000000000, 3, 0, 7, 0, 0⟩]], [(7, 1)], 0, 2, []⟩
     1 ⟨1000000000, 3, 0, 7, 0, 0⟩
     (by unfold OnlyTask Wf; decide) (by decide) (by decide) (by decide)⟩

end TimeWheelModel
